import Mathlib

/-!
Verification of the document-conversion pipeline in `app.py`.

The Python source is shallowly embedded over `List Char` / `String`.
Python regular expressions are translated into explicit character-level
matchers following the semantics of the `re` module (leftmost match,
alternatives tried in order, greedy and lazy quantifiers resolved as the
backtracking engine would).  Recursions that are not structural use an
explicit fuel argument so that every definition evaluates in the kernel.
-/

namespace App

/-- ASCII whitespace as recognised by Python `str.strip` and `\s`
(space, tab, newline, carriage return, vertical tab, form feed). -/
def isPySpace (c : Char) : Bool :=
  c = ' ' || c = '\t' || c = '\n' || c = '\r' || c = '\x0b' || c = '\x0c'

/-- Remove the characters satisfying `p` from both ends of a character list. -/
def stripBy (p : Char → Bool) (l : List Char) : List Char :=
  ((l.dropWhile p).reverse.dropWhile p).reverse

/-- Python `str.strip()` restricted to ASCII whitespace. -/
def pyStrip (s : String) : String :=
  ⟨stripBy isPySpace s.data⟩

/-- Python `str.strip(" .")`: remove spaces and periods from both ends. -/
def pyStripDot (s : String) : String :=
  ⟨stripBy (fun c => c = ' ' || c = '.') s.data⟩

/-- Worker for `pySplitlines`: `acc` holds the current line reversed. -/
def slAux : List Char → List Char → List (List Char)
  | [], acc => if acc.isEmpty then [] else [acc.reverse]
  | '\r' :: '\n' :: t, acc => acc.reverse :: slAux t []
  | '\r' :: t, acc => acc.reverse :: slAux t []
  | '\n' :: t, acc => acc.reverse :: slAux t []
  | c :: t, acc => slAux t (c :: acc)

/-- Python `str.splitlines()` for the line boundaries `\n`, `\r\n`, `\r`
(the boundaries actually occurring in this pipeline); no trailing empty
line is produced. -/
def pySplitlines (s : String) : List String :=
  (slAux s.data []).map fun l => ⟨l⟩

/-- `dropPfx p l` consumes the literal prefix `p` from `l`. -/
def dropPfx : List Char → List Char → Option (List Char)
  | [], l => some l
  | _ :: _, [] => none
  | p :: ps, c :: cs => if c = p then dropPfx ps cs else none

/-- Case-insensitive (ASCII lowering) version of `dropPfx`;
the pattern is given already lowered. -/
def ciDropPfx : List Char → List Char → Option (List Char)
  | [], l => some l
  | _ :: _, [] => none
  | p :: ps, c :: cs => if c.toLower = p then ciDropPfx ps cs else none

/-- Python `str.startswith`. -/
def pyStartsWith (s p : String) : Bool :=
  (dropPfx p.data s.data).isSome

/-- Python `sep.join(parts)` at the character level. -/
def joinSep (sep : List Char) : List (List Char) → List Char
  | [] => []
  | [x] => x
  | x :: y :: xs => x ++ sep ++ joinSep sep (y :: xs)

/-- Python `sep.join(parts)`. -/
def pyJoin (sep : String) (parts : List String) : String :=
  ⟨joinSep sep.data (parts.map String.data)⟩

/-- The regex `^#{1,6}\s*abstract\s*$` (IGNORECASE) of `abs_re`:
one to six `#`, optional whitespace, the word abstract in any case,
optional whitespace, end of line. -/
def absMatch (s : String) : Bool :=
  let cs := s.data
  let hashes := cs.takeWhile (· = '#')
  let rest := cs.dropWhile (· = '#')
  1 ≤ hashes.length && hashes.length ≤ 6 &&
    (match ciDropPfx "abstract".data (rest.dropWhile isPySpace) with
     | some r => r.all isPySpace
     | none => false)

/-- The separator class `[:â€”-]` of `key_re` as it is written in the
source file (a mojibake-encoded em dash), together with the IGNORECASE
companion of the letter `â`. -/
def isKeySep (c : Char) : Bool :=
  c = ':' || c = '-' || c = '\u00e2' || c = '\u00c2' || c = '\u20ac' || c = '\u201d'

/-- The regex `^(keywords|index terms)\s*[:â€”-]\s*(.+)$` (IGNORECASE) of
`key_re`, returning capture group 2.  The matcher is applied to stripped
single lines, which contain no newline. -/
def keyMatch (s : String) : Option String :=
  let afterLabel :=
    match ciDropPfx "keywords".data s.data with
    | some r => some r
    | none => ciDropPfx "index terms".data s.data
  match afterLabel with
  | none => none
  | some r1 =>
    match (r1.dropWhile isPySpace) with
    | [] => none
    | c :: r3 =>
      if isKeySep c then
        match r3.dropWhile isPySpace with
        | [] =>
          match r3 with
          | [] => none
          | _ :: _ => some ⟨[r3.getLastD ' ']⟩
        | r4 => some ⟨r4⟩
      else none

/-- Fueled scanner for `re.split(r"[;,]\s*|,?\s+and\s+", text)`:
a piece boundary is a semicolon or comma followed by optional whitespace,
or whitespace, the literal `and`, and whitespace (the first alternative is
tried first, so a comma never combines with a following `and`). -/
def splitKwF : Nat → List Char → List Char → List (List Char)
  | 0, rest, acc => [(acc.reverse ++ rest)]
  | _ + 1, [], acc => [acc.reverse]
  | fuel + 1, c :: t, acc =>
    if c = ';' || c = ',' then
      acc.reverse :: splitKwF fuel (t.dropWhile isPySpace) []
    else if isPySpace c then
      let run := (c :: t).dropWhile isPySpace
      match dropPfx "and".data run with
      | some u =>
        match u with
        | d :: _ =>
          if isPySpace d then acc.reverse :: splitKwF fuel (u.dropWhile isPySpace) []
          else splitKwF fuel t (c :: acc)
        | [] => splitKwF fuel t (c :: acc)
      | none => splitKwF fuel t (c :: acc)
    else splitKwF fuel t (c :: acc)

/-- `re.split(r"[;,]\s*|,?\s+and\s+", text)`. -/
def splitKw (s : String) : List String :=
  (splitKwF (s.data.length + 1) s.data []).map fun l => ⟨l⟩

/-- The comprehension `[k.strip(" .") for k in ks if k.strip()]` applied
to the pieces of `splitKw`. -/
def kwSplitClean (g : String) : List String :=
  (splitKw g).filterMap fun k =>
    if (pyStrip k).data.isEmpty then none else some (pyStripDot k)

/-- Result record of `parse_sections_from_markdown`. -/
structure MetaGuess where
  title : String
  abstract : String
  keywords : List String
  authors_raw : String
deriving Repr, DecidableEq

/-- Loop state of the abstract/keywords pass of
`parse_sections_from_markdown`. -/
structure ParseSt where
  inAbs : Bool
  absBuf : List String
  keywords : List String
deriving Repr, DecidableEq

/-- One iteration of the abstract/keywords loop: an abstract heading line
turns accumulation on and is itself skipped (`continue`); a `#`-line ends
accumulation; accumulated lines are stripped; the keywords line is the
first line whose `key_re` match is used while `keywords` is still empty. -/
def parseStep (st : ParseSt) (ln : String) : ParseSt :=
  let s := pyStrip ln
  if absMatch s then { st with inAbs := true }
  else
    let st1 := if st.inAbs && pyStartsWith ln "#" then { st with inAbs := false } else st
    let st2 := if st1.inAbs then { st1 with absBuf := st1.absBuf ++ [s] } else st1
    match keyMatch s with
    | some g => if st2.keywords.isEmpty then { st2 with keywords := kwSplitClean g } else st2
    | none => st2

/-- First line starting with `# `, with the marker removed and stripped. -/
def findTitle : List String → String
  | [] => ""
  | ln :: rest => if pyStartsWith ln "# " then pyStrip (ln.drop 2) else findTitle rest

/-- `re.search` for the institutional-marker pattern
`@|University|Institute|College|Department|Dept\.|School|Research|Lab`
(IGNORECASE): a case-insensitive substring search. -/
def ciContains (pat : List Char) (l : List Char) : Bool :=
  match l with
  | [] => pat.isEmpty
  | _ :: t => (ciDropPfx pat l).isSome || ciContains pat t

/-- Institutional-marker test used to collect raw author lines. -/
def hasInstMarker (ln : String) : Bool :=
  ciContains "@".data ln.data || ciContains "university".data ln.data ||
  ciContains "institute".data ln.data || ciContains "college".data ln.data ||
  ciContains "department".data ln.data || ciContains "dept.".data ln.data ||
  ciContains "school".data ln.data || ciContains "research".data ln.data ||
  ciContains "lab".data ln.data

/-- `parse_sections_from_markdown` from `app.py`. -/
def parse_sections_from_markdown (md : String) : MetaGuess :=
  let lines := pySplitlines md
  let title := findTitle lines
  let fin := lines.foldl parseStep ⟨false, [], []⟩
  let abstract := pyStrip (pyJoin " " fin.absBuf)
  let possible := (lines.take 20).filter fun ln =>
    !(pyStartsWith ln "#" || absMatch ln || (keyMatch ln).isSome) && hasInstMarker ln
  let authors_raw := pyJoin "\n" ((possible.map pyStrip).take 4)
  { title := title, abstract := abstract, keywords := fin.keywords, authors_raw := authors_raw }

/-- Author record produced by `split_authors_blocks`. -/
structure AuthorRec where
  name : String
  affiliation : String
  organization : String
  city_country : String
  email_or_orcid : String
deriving Repr, DecidableEq

/-- Character class `[\\w\\.-]` of the email regex as it is written in the
source: the double-escaped raw string makes it the literal set
backslash, `w`, `.`, `-`. -/
def isEmailC (c : Char) : Bool :=
  c = '\\' || c = 'w' || c = '.' || c = '-'

/-- Tail of the email pattern after the second character-class run:
`\\.\\w+`, i.e. a literal backslash, any character except newline,
a literal backslash, and one or more literal `w`. -/
def emailChk : List Char → Option (List Char)
  | '\\' :: x :: '\\' :: 'w' :: rest =>
    if x = '\n' then none else some ('\\' :: x :: '\\' :: 'w' :: rest.takeWhile (· = 'w'))
  | _ => none

/-- Greedy-with-backtracking second run of the email pattern: consume `k`
class characters (largest `k` first) and then require `emailChk`. -/
def emailRun2 : Nat → List Char → Option (List Char)
  | 0, _ => none
  | k + 1, l =>
    let run := l.takeWhile isEmailC
    if k + 1 ≤ run.length then
      match emailChk (l.drop (k + 1)) with
      | some tail => some (l.take (k + 1) ++ tail)
      | none => emailRun2 k l
    else emailRun2 k l

/-- Match the full (double-escaped) email pattern at the current position. -/
def emailAt (l : List Char) : Option (List Char) :=
  let run1 := l.takeWhile isEmailC
  match run1 with
  | [] => none
  | _ :: _ =>
    match l.drop run1.length with
    | '@' :: r2 =>
      match emailRun2 (r2.takeWhile isEmailC).length r2 with
      | some m2 => some (run1 ++ '@' :: m2)
      | none => none
    | _ => none

/-- `re.search` for the email pattern: first position with a match. -/
def emailSearch : List Char → Option (List Char)
  | [] => none
  | c :: t =>
    match emailAt (c :: t) with
    | some m => some m
    | none => emailSearch t

/-- Index of the last `\n` inside a list, if any. -/
def lastNlIdx (l : List Char) : Option Nat :=
  match l with
  | [] => none
  | c :: t =>
    match lastNlIdx t with
    | some j => some (j + 1)
    | none => if c = '\n' then some 0 else none

/-- Fueled scanner for `re.split(r"\n\s*\n|;\s*", text)`: a boundary is a
newline, then greedy whitespace backtracked to end at the last newline of
the run, or a semicolon followed by optional whitespace. -/
def splitChunksF : Nat → List Char → List Char → List (List Char)
  | 0, rest, acc => [(acc.reverse ++ rest)]
  | _ + 1, [], acc => [acc.reverse]
  | fuel + 1, c :: t, acc =>
    if c = '\n' then
      let w := t.takeWhile isPySpace
      match lastNlIdx w with
      | some j => acc.reverse :: splitChunksF fuel (t.drop (j + 1)) []
      | none => splitChunksF fuel t (c :: acc)
    else if c = ';' then
      acc.reverse :: splitChunksF fuel (t.dropWhile isPySpace) []
    else splitChunksF fuel t (c :: acc)

/-- `re.split(r"\n\s*\n|;\s*", text)`. -/
def splitChunks (s : String) : List String :=
  (splitChunksF (s.data.length + 1) s.data []).map fun l => ⟨l⟩

/-- `split_authors_blocks` from `app.py`.  The email regex is the
double-escaped one of the source, so it matches only backslash-laden
text, never an ordinary address. -/
def split_authors_blocks (authors_raw : String) : List AuthorRec :=
  let chunks := splitChunks (pyStrip authors_raw)
  let authors := chunks.filterMap fun ch =>
    if (pyStrip ch).data.isEmpty then none
    else
      let email :=
        match emailSearch ch.data with
        | some m => String.mk m
        | none => ""
      let name := pyStrip ⟨ch.data.takeWhile (· ≠ ',')⟩
      some { name := name, affiliation := pyStrip ch, organization := "",
             city_country := "", email_or_orcid := email }
  if authors.isEmpty then
    [{ name := "", affiliation := "", organization := "", city_country := "",
       email_or_orcid := "" }]
  else authors

/-- One line of `naive_md_to_latex`: `# `, `## `, `### ` markers become
section, subsection and sub-subsection commands; other lines pass through. -/
def mdLineToLatex (line : String) : String :=
  match line.data with
  | '#' :: ' ' :: rest => ⟨"\\section\x7b".data ++ rest ++ ['\x7d']⟩
  | '#' :: '#' :: ' ' :: rest => ⟨"\\subsection\x7b".data ++ rest ++ ['\x7d']⟩
  | '#' :: '#' :: '#' :: ' ' :: rest => ⟨"\\subsubsection\x7b".data ++ rest ++ ['\x7d']⟩
  | _ => line

/-- `naive_md_to_latex` from `app.py`. -/
def naive_md_to_latex (text : String) : String :=
  pyJoin "\n" ((pySplitlines text).map mdLineToLatex)

/-- Outcome of invoking the external pandoc process: `none` when the
executable cannot be located, otherwise the exit code and standard output. -/
def PandocResult := Option (Int × String)

/-- `markdown_to_latex` from `app.py`, with the external process modelled
by its observable outcome. -/
def markdown_to_latex (pandoc : PandocResult) (md_text : String) : String :=
  match pandoc with
  | none => naive_md_to_latex md_text
  | some (rc, out) => if rc ≠ 0 then naive_md_to_latex md_text else out

/-- Plain `re.split(r"[;,]", s)`: split on semicolons and commas. -/
def splitSemiCommaF : Nat → List Char → List Char → List (List Char)
  | 0, rest, acc => [(acc.reverse ++ rest)]
  | _ + 1, [], acc => [acc.reverse]
  | fuel + 1, c :: t, acc =>
    if c = ';' || c = ',' then acc.reverse :: splitSemiCommaF fuel t []
    else splitSemiCommaF fuel t (c :: acc)

/-- `re.split(r"[;,]", s)`. -/
def splitSemiComma (s : String) : List String :=
  (splitSemiCommaF (s.data.length + 1) s.data []).map fun l => ⟨l⟩

/-- User-submitted form fields read by `generate`. -/
structure GenForm where
  title : String
  abstract : String
  keywords : String
deriving Repr, DecidableEq

/-- Template context assembled by `generate`. -/
structure RenderContext where
  title : String
  abstract : String
  keywords : List String
  body_latex : String
  bibfile_base : String
deriving Repr, DecidableEq

/-- The context construction of `generate` in `app.py`: fields are
stripped, the keyword string is split on `[;,]` with empty entries
dropped, and the title is defaulted through `title or "Untitled"`. -/
def generateContext (form : GenForm) (body_latex : String) : RenderContext :=
  let title := pyStrip form.title
  let abstract := pyStrip form.abstract
  let keywords := (splitSemiComma form.keywords).filterMap fun k =>
    if (pyStrip k).data.isEmpty then none else some (pyStrip k)
  { title := if title.data.isEmpty then "Untitled" else title,
    abstract := abstract, keywords := keywords,
    body_latex := body_latex, bibfile_base := "refs" }

/-! ### The body sanitizer `strip_abstract_keywords_from_latex`

The two substitutions use the patterns, written here with escaped braces
exactly as the double-escaped raw strings of the source denote them:

  `\\section\\*?\\{[Aa]bstract\\}.*?(?=LA)` and
  `\\section\\*?\\{[Kk]eywords?.*?\\}.*?(?=LA)`

with lookahead alternatives
`\\section|\\subsection|\\subsubsection|\\paragraph|\\end\\{document\\}|$`
and flag `re.S`.  Inside the patterns `\\` matches one literal backslash,
so the heading commands must be followed by backslash-escaped braces. -/

/-- Lookahead token `\section`. -/
def tokSec : List Char := "\\section".data

/-- Lookahead token `\subsection`. -/
def tokSub : List Char := "\\subsection".data

/-- Lookahead token `\subsubsection`. -/
def tokSubsub : List Char := "\\subsubsection".data

/-- Lookahead token `\paragraph`. -/
def tokPar : List Char := "\\paragraph".data

/-- Lookahead token `\end\{document\}` (with literal backslash-brace, as
the double-escaped pattern requires). -/
def tokEnd : List Char := ['\\', 'e', 'n', 'd', '\\', '\x7b', 'd', 'o', 'c', 'u', 'm', 'e', 'n', 't', '\\', '\x7d']

/-- The five lookahead tokens. -/
def laToks : List (List Char) := [tokSec, tokSub, tokSubsub, tokPar, tokEnd]

/-- The lookahead `(?=\\section|...|\\end\\{document\\}|$)` holds at a
position: the remaining text starts with one of the five tokens, or the
position is the end of the string, or just before a final newline. -/
def laHolds (l : List Char) : Bool :=
  (dropPfx tokSec l).isSome || (dropPfx tokSub l).isSome ||
  (dropPfx tokSubsub l).isSome || (dropPfx tokPar l).isSome ||
  (dropPfx tokEnd l).isSome || l.isEmpty || l = ['\n']

/-- Lazy `.*?(?=LA)` under `re.S`: advance to the first position where the
lookahead holds (the end of the string always qualifies). -/
def advanceLA : List Char → List Char
  | [] => []
  | c :: t => if laHolds (c :: t) then c :: t else advanceLA t

/-- Lazy `\\*?` followed by `\\{`: consume backslashes one at a time until
a backslash-brace pair can be consumed. -/
def bsOpen : List Char → Option (List Char)
  | [] => none
  | c :: cs =>
    if c = '\\' then
      match cs with
      | [] => none
      | d :: ds => if d = '\x7b' then some ds else bsOpen (d :: ds)
    else none

/-- Lazy `.*?` followed by `\\}` under `re.S`: advance to the first
backslash-closebrace pair and consume it. -/
def scanToCloseBrace : List Char → Option (List Char)
  | [] => none
  | c :: cs =>
    match cs with
    | [] => none
    | d :: ds => if c = '\\' && d = '\x7d' then some ds else scanToCloseBrace (d :: ds)

/-- Match of the abstract pattern at the current position, returning the
text after the whole match (the core followed by the lazy tail). -/
def matchAbs (cs : List Char) : Option (List Char) :=
  match dropPfx tokSec cs with
  | none => none
  | some r1 =>
    match bsOpen r1 with
    | none => none
    | some r2 =>
      match r2 with
      | c :: r3 =>
        if c = 'A' || c = 'a' then
          match dropPfx "bstract".data r3 with
          | none => none
          | some r4 =>
            match r4 with
            | a :: b :: r5 => if a = '\\' && b = '\x7d' then some (advanceLA r5) else none
            | _ => none
        else none
      | [] => none

/-- Match of the keywords pattern at the current position, returning the
text after the whole match.  After `eyword` the optional `s` is tried
greedily; on failure of the scan the engine backtracks to the branch
without the `s`. -/
def matchKw (cs : List Char) : Option (List Char) :=
  match dropPfx tokSec cs with
  | none => none
  | some r1 =>
    match bsOpen r1 with
    | none => none
    | some r2 =>
      match r2 with
      | c :: r3 =>
        if c = 'K' || c = 'k' then
          match dropPfx "eyword".data r3 with
          | none => none
          | some r4 =>
            match r4 with
            | a :: t =>
              if a = 's' then
                match scanToCloseBrace t with
                | some u => some (advanceLA u)
                | none =>
                  match scanToCloseBrace (a :: t) with
                  | some u => some (advanceLA u)
                  | none => none
              else
                match scanToCloseBrace (a :: t) with
                | some u => some (advanceLA u)
                | none => none
            | [] => none
        else none
      | [] => none

/-- Fueled `re.sub(pattern, "", text)`: scan left to right; at each
position, if the matcher succeeds the match is deleted and scanning
resumes after it, otherwise the character is kept. -/
def subF (m : List Char → Option (List Char)) : Nat → List Char → List Char
  | 0, l => l
  | _ + 1, [] => []
  | fuel + 1, c :: cs =>
    match m (c :: cs) with
    | some r => subF m fuel r
    | none => c :: subF m fuel cs

/-- `re.sub` with enough fuel for the whole input. -/
def subM (m : List Char → Option (List Char)) (l : List Char) : List Char :=
  subF m l.length l

/-- `strip_abstract_keywords_from_latex` from `app.py`: delete all
matches of the abstract pattern, then all matches of the keywords
pattern. -/
def strip_abstract_keywords_from_latex (latex_body : String) : String :=
  ⟨subM matchKw (subM matchAbs latex_body.data)⟩

/-- The text consumed by the core of the abstract pattern:
`\section`, `k` extra backslashes, a backslash-brace, `A` or `a`,
`bstract`, and a backslash-closebrace. -/
def word1 (k : Nat) (c : Char) : List Char :=
  tokSec ++ List.replicate k '\\' ++ '\\' :: '\x7b' :: c :: "bstract".data ++ ['\\', '\x7d']

/-- The rigid head consumed by the keywords pattern before its inner
lazy scan: `\section`, `k` extra backslashes, a backslash-brace, `K` or
`k`, `eyword`. -/
def word2 (k : Nat) (c : Char) : List Char :=
  tokSec ++ List.replicate k '\\' ++ '\\' :: '\x7b' :: c :: "eyword".data

/-- A backslash-closebrace pair occurs somewhere in the list. -/
def hasBS (l : List Char) : Prop :=
  ∃ u v, l = u ++ '\\' :: '\x7d' :: v

/-- No suffix of `l` matches `m`. -/
def NoM (m : List Char → Option (List Char)) (l : List Char) : Prop :=
  ∀ x y, l = x ++ y → m y = none

/-- Every backslash in the list is immediately followed by a backslash or
a brace (checked over adjacent pairs). -/
def pairsOk : List Char → Bool
  | a :: b :: t =>
    (if a = '\\' then (b = '\\' || b = '\x7b' || b = '\x7d') else true) && pairsOk (b :: t)
  | _ => true

/-- Membership in the family of texts consumed by the abstract core. -/
def IsWord1 (w : List Char) : Prop :=
  ∃ k c, (c = 'A' ∨ c = 'a') ∧ w = word1 k c

/-- Membership in the family of rigid heads of the keywords pattern. -/
def IsWord2 (w : List Char) : Prop :=
  ∃ k c, (c = 'K' ∨ c = 'k') ∧ w = word2 k c

/-! ### Lemmas about the metadata-extraction loop -/

theorem ciDropPfx_head {p : Char} {ps : List Char} {l r : List Char}
    (h : ciDropPfx (p :: ps) l = some r) : ∃ c cs, l = c :: cs ∧ c.toLower = p := by
  cases l with
  | nil => simp [ciDropPfx] at h
  | cons c cs =>
    refine ⟨c, cs, rfl, ?_⟩
    by_contra hc
    simp [ciDropPfx, hc] at h

theorem absMatch_head {s : String} (h : absMatch s = true) :
    ∃ t, s.data = '#' :: t := by
  obtain ⟨d⟩ := s
  cases d with
  | nil => exact absurd h (by decide)
  | cons c cs =>
    by_cases hc : c = '#'
    · exact ⟨cs, by rw [hc]⟩
    · exfalso
      simp [absMatch, List.takeWhile_cons, hc] at h

theorem keyMatch_hash_none (t : List Char) : keyMatch ⟨'#' :: t⟩ = none := by
  have h1 : ciDropPfx "keywords".data ('#' :: t) = none := by
    rw [show "keywords".data = 'k' :: "eywords".data from rfl]
    rw [ciDropPfx]
    rw [if_neg (by decide)]
  have h2 : ciDropPfx "index terms".data ('#' :: t) = none := by
    rw [show "index terms".data = 'i' :: "ndex terms".data from rfl]
    rw [ciDropPfx]
    rw [if_neg (by decide)]
  unfold keyMatch
  rw [show (String.mk ('#' :: t)).data = '#' :: t from rfl]
  rw [h1, h2]

theorem keyMatch_not_abs {s : String} {g : String} (h : keyMatch s = some g) :
    absMatch s = false := by
  by_contra hab
  rw [Bool.not_eq_false] at hab
  obtain ⟨t, ht⟩ := absMatch_head hab
  obtain ⟨d⟩ := s
  simp only at ht
  rw [ht] at h
  rw [keyMatch_hash_none] at h
  exact Option.noConfusion h

theorem pyStartsWith_hash_of_abs {s : String} (h : absMatch (pyStrip s) = true)
    (hfix : pyStrip s = s) : pyStartsWith s "#" = true := by
  rw [hfix] at h
  obtain ⟨t, ht⟩ := absMatch_head h
  unfold pyStartsWith dropPfx
  rw [ht]
  simp [dropPfx]

theorem parseStep_abs {st : ParseSt} {ln : String}
    (h : absMatch (pyStrip ln) = true) :
    parseStep st ln = { st with inAbs := true } := by
  unfold parseStep
  simp only [h, if_true]

theorem parseStep_keep_kw {st : ParseSt} {ln : String} (h : st.keywords ≠ []) :
    (parseStep st ln).keywords = st.keywords := by
  unfold parseStep
  by_cases hab : absMatch (pyStrip ln) = true
  · simp [hab]
  · simp only [hab, if_false, Bool.not_eq_true] at *
    rcases hk : keyMatch (pyStrip ln) with _ | g <;>
      simp only [hab, if_false, hk] <;>
      by_cases h1 : st.inAbs && pyStartsWith ln "#" <;>
      by_cases h2 : st.inAbs <;>
      simp_all [List.isEmpty_iff]

theorem parseStep_kw_skip {st : ParseSt} {ln : String}
    (h : absMatch (pyStrip ln) = true ∨ keyMatch (pyStrip ln) = none) :
    (parseStep st ln).keywords = st.keywords := by
  unfold parseStep
  rcases h with h | h
  · simp [h]
  · by_cases hab : absMatch (pyStrip ln) = true
    · simp [hab]
    · simp only [Bool.not_eq_true] at hab
      simp only [hab, Bool.false_eq_true, if_false, h]
      by_cases h1 : st.inAbs && pyStartsWith ln "#" <;>
        by_cases h2 : st.inAbs <;> simp_all

theorem parseStep_kw_set {st : ParseSt} {ln : String} {g : String}
    (h0 : st.keywords = []) (h2 : keyMatch (pyStrip ln) = some g) :
    (parseStep st ln).keywords = kwSplitClean g := by
  have h1 : absMatch (pyStrip ln) = false := keyMatch_not_abs h2
  unfold parseStep
  simp only [h1, Bool.false_eq_true, if_false, h2]
  by_cases hb1 : st.inAbs && pyStartsWith ln "#" <;>
    by_cases hb2 : st.inAbs <;> simp_all

theorem parseStep_noabs {st : ParseSt} {ln : String}
    (h1 : absMatch (pyStrip ln) = false) (h0 : st.inAbs = false) :
    (parseStep st ln).inAbs = false ∧ (parseStep st ln).absBuf = st.absBuf := by
  unfold parseStep
  simp only [h1, Bool.false_eq_true, if_false, h0, Bool.false_and]
  rcases hk : keyMatch (pyStrip ln) with _ | g <;>
    simp_all <;> by_cases hkw : st.keywords.isEmpty <;> simp_all

theorem parseStep_body {st : ParseSt} {ln : String}
    (h0 : st.inAbs = true) (h1 : pyStartsWith ln "#" = false)
    (h2 : absMatch (pyStrip ln) = false) :
    (parseStep st ln).inAbs = true ∧
      (parseStep st ln).absBuf = st.absBuf ++ [pyStrip ln] := by
  unfold parseStep
  simp only [h2, Bool.false_eq_true, if_false, h0, h1, Bool.and_false, Bool.true_and,
    if_false, if_true]
  rcases hk : keyMatch (pyStrip ln) with _ | g <;>
    simp_all <;> by_cases hkw : st.keywords.isEmpty <;> simp_all

theorem parseStep_close {st : ParseSt} {ln : String}
    (h0 : st.inAbs = true) (h1 : pyStartsWith ln "#" = true)
    (h2 : absMatch (pyStrip ln) = false) :
    (parseStep st ln).inAbs = false ∧ (parseStep st ln).absBuf = st.absBuf := by
  unfold parseStep
  simp only [h2, Bool.false_eq_true, if_false, h0, h1, Bool.and_self, if_true]
  rcases hk : keyMatch (pyStrip ln) with _ | g <;>
    simp_all <;> by_cases hkw : st.keywords.isEmpty <;> simp_all

theorem foldl_keep_kw (L : List String) (st : ParseSt) (h : st.keywords ≠ []) :
    (L.foldl parseStep st).keywords = st.keywords := by
  induction L generalizing st with
  | nil => rfl
  | cons ln L ih =>
    rw [List.foldl_cons]
    rw [ih _ (by rw [parseStep_keep_kw h]; exact h)]
    exact parseStep_keep_kw h

theorem foldl_kw_skip (L : List String) (st : ParseSt)
    (h : ∀ l ∈ L, absMatch (pyStrip l) = true ∨ keyMatch (pyStrip l) = none) :
    (L.foldl parseStep st).keywords = st.keywords := by
  induction L generalizing st with
  | nil => rfl
  | cons ln L ih =>
    rw [List.foldl_cons]
    rw [ih _ (fun l hl => h l (List.mem_cons_of_mem _ hl))]
    exact parseStep_kw_skip (h ln (List.mem_cons_self _ _))

theorem foldl_noabs (L : List String) (st : ParseSt)
    (h : ∀ l ∈ L, absMatch (pyStrip l) = false) (h0 : st.inAbs = false) :
    (L.foldl parseStep st).inAbs = false ∧ (L.foldl parseStep st).absBuf = st.absBuf := by
  induction L generalizing st with
  | nil => exact ⟨h0, rfl⟩
  | cons ln L ih =>
    rw [List.foldl_cons]
    have hs := parseStep_noabs (h ln (List.mem_cons_self _ _)) h0
    have := ih _ (fun l hl => h l (List.mem_cons_of_mem _ hl)) hs.1
    exact ⟨this.1, by rw [this.2, hs.2]⟩

theorem foldl_body (L : List String) (st : ParseSt)
    (h0 : st.inAbs = true)
    (h : ∀ l ∈ L, pyStartsWith l "#" = false ∧ absMatch (pyStrip l) = false) :
    (L.foldl parseStep st).inAbs = true ∧
      (L.foldl parseStep st).absBuf = st.absBuf ++ L.map pyStrip := by
  induction L generalizing st with
  | nil => exact ⟨h0, by simp⟩
  | cons ln L ih =>
    rw [List.foldl_cons]
    have hs := parseStep_body h0 (h ln (List.mem_cons_self _ _)).1
      (h ln (List.mem_cons_self _ _)).2
    have := ih _ hs.1 (fun l hl => h l (List.mem_cons_of_mem _ hl))
    refine ⟨this.1, ?_⟩
    rw [this.2, hs.2]
    simp

/-! ### The claims -/

/-- Claim C1.  Keyword extraction on a document containing the line
`Keywords: A; b, and C.` does NOT produce `["A", "b", "C"]`: the first
split alternative `[;,]\s*` consumes `, ` before `,?\s+and\s+` is ever
tried, so the conjunction survives inside the last term and the code
yields `["A", "b", "and C"]`.  This theorem evaluates the embedded code
at the failing input. -/
theorem claim_C1_keywords_split_eval :
    (parse_sections_from_markdown "Keywords: A; b, and C.").keywords
      = ["A", "b", "and C"] ∧ ["A", "b", "and C"] ≠ ["A", "b", "C"] := by
  constructor
  · rfl
  · decide

/-- Claim C2.  The author chunk `Jane Doe, MIT, jane@mit.edu` parses to
name `Jane Doe` and affiliation equal to the chunk, but the email field
is EMPTY: the email regex is written with doubled backslashes inside a
raw string, so its character classes match only the literal characters
backslash, `w`, `.`, `-`, and `jane@mit.edu` cannot match.  This theorem
evaluates the embedded code at the failing input. -/
theorem claim_C2_author_block_eval :
    split_authors_blocks "Jane Doe, MIT, jane@mit.edu"
      = [{ name := "Jane Doe", affiliation := "Jane Doe, MIT, jane@mit.edu",
           organization := "", city_country := "", email_or_orcid := "" }]
    ∧ emailSearch ("Jane Doe, MIT, jane@mit.edu" : String).data = none := by
  constructor
  · rfl
  · rfl

/-- Claim C3.  On genuine LaTeX containing `\section{Abstract}` the body
sanitizer removes NOTHING: its double-escaped patterns require a literal
backslash before each brace (`\section\{Abstract\}`), which never occurs
in converter output, so the result equals the input — contradicting the
claim that such a section is removed and the output differs. -/
theorem claim_C3_sanitizer_eval :
    strip_abstract_keywords_from_latex
        "\\section\x7bAbstract\x7d\nThe abstract text.\n\\section\x7bIntroduction\x7d\nBody."
      = "\\section\x7bAbstract\x7d\nThe abstract text.\n\\section\x7bIntroduction\x7d\nBody." := by
  rfl

/-- Claim C4.  Abstract extraction: if the line list of the input splits
as `pre ++ habs :: body ++ hd2 :: rest` where `habs` is the only
abstract-heading line, every line of `body` is a non-heading line and
`hd2` is a heading line, then the extracted abstract is exactly the
lines of `body`, each stripped, joined by single spaces and trimmed;
and an input with no abstract-heading line yields the empty abstract. -/
theorem claim_C4_abstract_extraction :
    (∀ (s : String) (pre body rest : List String) (habs hd2 : String),
      pySplitlines s = pre ++ habs :: (body ++ hd2 :: rest) →
      (∀ l ∈ pre, absMatch (pyStrip l) = false) →
      absMatch (pyStrip habs) = true →
      (∀ l ∈ body, pyStartsWith l "#" = false ∧ absMatch (pyStrip l) = false) →
      pyStartsWith hd2 "#" = true →
      absMatch (pyStrip hd2) = false →
      (∀ l ∈ rest, absMatch (pyStrip l) = false) →
      (parse_sections_from_markdown s).abstract = pyStrip (pyJoin " " (body.map pyStrip)))
    ∧ (∀ s : String, (∀ l ∈ pySplitlines s, absMatch (pyStrip l) = false) →
      (parse_sections_from_markdown s).abstract = "") := by
  constructor
  · intro s pre body rest habs hd2 hsplit hpre habsm hbody hhd2 hhd2abs hrest
    unfold parse_sections_from_markdown
    simp only [hsplit, List.foldl_append, List.foldl_cons]
    have h0 := foldl_noabs pre ⟨false, [], []⟩ hpre rfl
    have h1 : (parseStep (pre.foldl parseStep ⟨false, [], []⟩) habs).inAbs = true ∧
        (parseStep (pre.foldl parseStep ⟨false, [], []⟩) habs).absBuf = [] := by
      rw [parseStep_abs habsm]
      exact ⟨rfl, h0.2⟩
    have h2 := foldl_body body _ h1.1 hbody
    have h3 := parseStep_close h2.1 hhd2 hhd2abs
    have h4 := foldl_noabs rest _ hrest h3.1
    rw [h4.2, h3.2, h2.2, h1.2, List.nil_append]
  · intro s hall
    unfold parse_sections_from_markdown
    have h0 := foldl_noabs (pySplitlines s) ⟨false, [], []⟩ hall rfl
    dsimp only
    rw [h0.2]
    rfl

/-- Claim C4 witness: a concrete instance of both parts. -/
theorem claim_C4_abstract_extraction_witness :
    (parse_sections_from_markdown "## Abstract\nThis is it.\n# Next").abstract
        = "This is it."
    ∧ (parse_sections_from_markdown "No heading here.\nJust text.").abstract = "" := by
  constructor
  · have h := claim_C4_abstract_extraction.1 "## Abstract\nThis is it.\n# Next"
      [] ["This is it."] [] "## Abstract" "# Next" (by rfl)
      (by decide) (by decide) (by decide) (by rfl) (by decide) (by decide)
    rw [h]
    rfl
  · have h := claim_C4_abstract_extraction.2 "No heading here.\nJust text." (by decide)
    exact h

/-- Claim C5 counterexample: with the first matching line `Keywords: ,`
(which yields an empty keyword list) the content of the SECOND matching
line determines the output, so later matching lines are not without
effect. -/
theorem claim_C5_counterexample :
    keyMatch (pyStrip "Keywords: ,") = some ","
    ∧ kwSplitClean "," = []
    ∧ (parse_sections_from_markdown "Keywords: ,\nKeywords: x").keywords = ["x"]
    ∧ (parse_sections_from_markdown "Keywords: ,\nKeywords: y").keywords = ["y"] := by
  exact ⟨rfl, rfl, rfl, rfl⟩

/-- Claim C5 (amended).  If the first keywords-pattern line yields a
NONEMPTY keyword list, that list is the result and every later line has
no effect; a matching line whose extraction is empty leaves the search
open for later matching lines. -/
theorem claim_C5_first_nonempty_keywords :
    ∀ (s : String) (pre rest : List String) (kl : String) (g : String),
      pySplitlines s = pre ++ kl :: rest →
      (∀ l ∈ pre, absMatch (pyStrip l) = true ∨ keyMatch (pyStrip l) = none) →
      keyMatch (pyStrip kl) = some g →
      kwSplitClean g ≠ [] →
      (parse_sections_from_markdown s).keywords = kwSplitClean g := by
  intro s pre rest kl g hsplit hpre hkl hne
  unfold parse_sections_from_markdown
  simp only [hsplit, List.foldl_append, List.foldl_cons]
  have h0 : (pre.foldl parseStep ⟨false, [], []⟩).keywords = [] :=
    foldl_kw_skip pre ⟨false, [], []⟩ hpre
  have h1 : (parseStep (pre.foldl parseStep ⟨false, [], []⟩) kl).keywords
      = kwSplitClean g := parseStep_kw_set h0 hkl
  have h2 := foldl_keep_kw rest _ (by rw [h1]; exact hne)
  rw [h2, h1]

/-- Claim C5 witness: a concrete instance of the amended claim. -/
theorem claim_C5_first_nonempty_keywords_witness :
    (parse_sections_from_markdown "Intro line\nKeywords: a, b\nKeywords: zzz").keywords
      = ["a", "b"] := by
  have h := claim_C5_first_nonempty_keywords
    "Intro line\nKeywords: a, b\nKeywords: zzz"
    ["Intro line"] ["Keywords: zzz"] "Keywords: a, b" "a, b"
    (by rfl) (by decide) (by rfl) (by decide)
  rw [h]
  rfl

/-- Claim C6 counterexample: an empty submitted title is NOT rendered as
the empty string — `title or "Untitled"` substitutes the default. -/
theorem claim_C6_counterexample :
    (generateContext { title := "", abstract := "", keywords := "" } "").title
      = "Untitled"
    ∧ ("Untitled" : String) ≠ "" := by
  constructor
  · rfl
  · decide

/-- Claim C6 (amended).  The context built by `generate` renders absent
or empty optional fields as empty values (empty abstract stays empty,
empty keyword string gives the empty list, the body passes through),
except the title: a title that strips to empty is replaced by the
default `Untitled`, and a nonempty one passes through stripped. -/
theorem claim_C6_context_fields :
    ∀ (form : GenForm) (body : String),
      (generateContext form body).abstract = pyStrip form.abstract
      ∧ (generateContext form body).body_latex = body
      ∧ (form.keywords = "" → (generateContext form body).keywords = [])
      ∧ ((pyStrip form.title).data = [] → (generateContext form body).title = "Untitled")
      ∧ ((pyStrip form.title).data ≠ [] → (generateContext form body).title = pyStrip form.title) := by
  intro form body
  refine ⟨rfl, rfl, ?_, ?_, ?_⟩
  · intro h
    unfold generateContext
    rw [h]
    rfl
  · intro h
    unfold generateContext
    simp [h, List.isEmpty_iff]
  · intro h
    unfold generateContext
    simp [List.isEmpty_iff, h]

/-- Claim C6 witness: a concrete instance of the amended claim. -/
theorem claim_C6_context_fields_witness :
    (generateContext { title := "  ", abstract := "", keywords := "" } "B").abstract = ""
    ∧ (generateContext { title := "  ", abstract := "", keywords := "" } "B").keywords = []
    ∧ (generateContext { title := "  ", abstract := "", keywords := "" } "B").title = "Untitled" := by
  have h := claim_C6_context_fields { title := "  ", abstract := "", keywords := "" } "B"
  exact ⟨h.1, h.2.2.1 rfl, h.2.2.2.1 (by decide)⟩

/-- Claim C7.  The fallback typesetter is a total line-by-line function:
lines starting with the three heading markers become section, subsection
and sub-subsection commands carrying the remaining text, and every other
line passes through unchanged; the empty input yields the empty output. -/
theorem claim_C7_fallback_typesetter :
    naive_md_to_latex "" = ""
    ∧ (∀ text : String,
        naive_md_to_latex text = pyJoin "\n" ((pySplitlines text).map mdLineToLatex))
    ∧ (∀ r : List Char,
        mdLineToLatex ⟨'#' :: ' ' :: r⟩ = ⟨"\\section\x7b".data ++ r ++ ['\x7d']⟩)
    ∧ (∀ r : List Char,
        mdLineToLatex ⟨'#' :: '#' :: ' ' :: r⟩ = ⟨"\\subsection\x7b".data ++ r ++ ['\x7d']⟩)
    ∧ (∀ r : List Char,
        mdLineToLatex ⟨'#' :: '#' :: '#' :: ' ' :: r⟩
          = ⟨"\\subsubsection\x7b".data ++ r ++ ['\x7d']⟩)
    ∧ (∀ line : String,
        pyStartsWith line "# " = false → pyStartsWith line "## " = false →
        pyStartsWith line "### " = false → mdLineToLatex line = line) := by
  refine ⟨rfl, fun _ => rfl, fun r => rfl, fun r => rfl, fun r => rfl, ?_⟩
  intro line h1 h2 h3
  obtain ⟨d⟩ := line
  unfold pyStartsWith at h1 h2 h3
  rw [show ("# " : String).data = ['#', ' '] from rfl] at h1
  rw [show ("## " : String).data = ['#', '#', ' '] from rfl] at h2
  rw [show ("### " : String).data = ['#', '#', '#', ' '] from rfl] at h3
  dsimp only at h1 h2 h3
  unfold mdLineToLatex
  split
  next heq => exfalso; dsimp only at heq; subst heq; simp [dropPfx] at h1
  next heq => exfalso; dsimp only at heq; subst heq; simp [dropPfx] at h2
  next heq => exfalso; dsimp only at heq; subst heq; simp [dropPfx] at h3
  next => rfl

/-- Claim C7 witness: concrete instances of the hypothesis-bearing parts. -/
theorem claim_C7_fallback_typesetter_witness :
    naive_md_to_latex "# Intro" = "\\section\x7bIntro\x7d"
    ∧ mdLineToLatex "plain text" = "plain text" := by
  constructor
  · rfl
  · exact claim_C7_fallback_typesetter.2.2.2.2.2 "plain text" (by decide) (by decide) (by decide)

/-- Claim C8.  Whenever the external converter is absent or exits with a
nonzero status, `markdown_to_latex` returns the fallback typesetter's
output instead of failing. -/
theorem claim_C8_markdown_to_latex_fallback :
    ∀ (pandoc : PandocResult) (md : String),
      (pandoc = none ∨ ∃ rc out, pandoc = some (rc, out) ∧ rc ≠ 0) →
      markdown_to_latex pandoc md = naive_md_to_latex md := by
  intro pandoc md h
  rcases h with h | ⟨rc, out, h, hrc⟩
  · rw [h]; rfl
  · rw [h]
    show (if rc ≠ 0 then naive_md_to_latex md else out) = naive_md_to_latex md
    rw [if_pos hrc]

/-- Claim C8 witness: both degradation cases at concrete inputs. -/
theorem claim_C8_markdown_to_latex_fallback_witness :
    markdown_to_latex none "# T" = naive_md_to_latex "# T"
    ∧ markdown_to_latex (some (1, "boom")) "# T" = naive_md_to_latex "# T" := by
  exact ⟨claim_C8_markdown_to_latex_fallback none "# T" (Or.inl rfl),
    claim_C8_markdown_to_latex_fallback (some (1, "boom")) "# T"
      (Or.inr ⟨1, "boom", rfl, by decide⟩)⟩

/-- Claim C10 counterexample: when the keywords line inside the abstract
block yields an EMPTY keyword list, a later matching line outside the
block supplies the keywords, so the in-block line is not the keyword
source — even though it still appears verbatim in the abstract. -/
theorem claim_C10_counterexample :
    keyMatch (pyStrip "Keywords: ,") = some ","
    ∧ kwSplitClean "," = []
    ∧ (parse_sections_from_markdown
        "## Abstract\nKeywords: ,\n# Next\nKeywords: z").keywords = ["z"]
    ∧ (parse_sections_from_markdown
        "## Abstract\nKeywords: ,\n# Next\nKeywords: z").abstract = "Keywords: ," := by
  exact ⟨rfl, rfl, rfl, rfl⟩

/-- Claim C10 (amended).  If the first keywords-pattern line lies
strictly between the abstract heading and the next heading line and its
extraction is nonempty, then it is both the keyword source and included
verbatim (stripped) in the extracted abstract. -/
theorem claim_C10_keywords_line_in_abstract :
    ∀ (s : String) (pre b1 b2 rest : List String) (habs kl hd2 : String) (g : String),
      pySplitlines s = pre ++ habs :: (b1 ++ kl :: (b2 ++ hd2 :: rest)) →
      (∀ l ∈ pre, absMatch (pyStrip l) = false ∧ keyMatch (pyStrip l) = none) →
      absMatch (pyStrip habs) = true →
      (∀ l ∈ b1, pyStartsWith l "#" = false ∧ absMatch (pyStrip l) = false
        ∧ keyMatch (pyStrip l) = none) →
      pyStartsWith kl "#" = false →
      keyMatch (pyStrip kl) = some g →
      kwSplitClean g ≠ [] →
      (∀ l ∈ b2, pyStartsWith l "#" = false ∧ absMatch (pyStrip l) = false) →
      pyStartsWith hd2 "#" = true →
      absMatch (pyStrip hd2) = false →
      (∀ l ∈ rest, absMatch (pyStrip l) = false) →
      (parse_sections_from_markdown s).keywords = kwSplitClean g
      ∧ (parse_sections_from_markdown s).abstract
          = pyStrip (pyJoin " " ((b1.map pyStrip) ++ pyStrip kl :: (b2.map pyStrip))) := by
  intro s pre b1 b2 rest habs kl hd2 g hsplit hpre habsm hb1 hklh hklm hne hb2 hhd2 hhd2abs hrest
  have hklabs : absMatch (pyStrip kl) = false := keyMatch_not_abs hklm
  constructor
  · unfold parse_sections_from_markdown
    simp only [hsplit, List.foldl_append, List.foldl_cons]
    have h0 : ((pre.foldl parseStep ⟨false, [], []⟩)).keywords = [] :=
      foldl_kw_skip pre _ (fun l hl => Or.inr (hpre l hl).2)
    have h1 : (parseStep (pre.foldl parseStep ⟨false, [], []⟩) habs).keywords = [] := by
      rw [parseStep_kw_skip (Or.inl habsm)]
      exact h0
    have h2 : ((b1.foldl parseStep (parseStep (pre.foldl parseStep ⟨false, [], []⟩) habs))).keywords = [] := by
      rw [foldl_kw_skip b1 _ (fun l hl => Or.inr (hb1 l hl).2.2)]
      exact h1
    have h3 := parseStep_kw_set h2 hklm
    have h4 := foldl_keep_kw (b2 ++ hd2 :: rest) _ (by rw [h3]; exact hne)
    rw [List.foldl_append, List.foldl_cons] at h4
    rw [h4, h3]
  · unfold parse_sections_from_markdown
    simp only [hsplit, List.foldl_append, List.foldl_cons]
    have h0 := foldl_noabs pre ⟨false, [], []⟩ (fun l hl => (hpre l hl).1) rfl
    have h1 : (parseStep (pre.foldl parseStep ⟨false, [], []⟩) habs).inAbs = true ∧
        (parseStep (pre.foldl parseStep ⟨false, [], []⟩) habs).absBuf = [] := by
      rw [parseStep_abs habsm]
      exact ⟨rfl, h0.2⟩
    have h2 := foldl_body b1 _ h1.1 (fun l hl => ⟨(hb1 l hl).1, (hb1 l hl).2.1⟩)
    have h3 := parseStep_body h2.1 hklh hklabs
    have h4 := foldl_body b2 _ h3.1 hb2
    have h5 := parseStep_close h4.1 hhd2 hhd2abs
    have h6 := foldl_noabs rest _ hrest h5.1
    rw [h6.2, h5.2, h4.2, h3.2, h2.2, h1.2, List.nil_append]
    simp

/-- Claim C10 witness: a concrete instance of the amended claim. -/
theorem claim_C10_keywords_line_in_abstract_witness :
    (parse_sections_from_markdown
        "## Abstract\nFirst line.\nKeywords: x; y\nMore text.\n# Next\nTail").keywords
      = ["x", "y"]
    ∧ (parse_sections_from_markdown
        "## Abstract\nFirst line.\nKeywords: x; y\nMore text.\n# Next\nTail").abstract
      = "First line. Keywords: x; y More text." := by
  have h := claim_C10_keywords_line_in_abstract
    "## Abstract\nFirst line.\nKeywords: x; y\nMore text.\n# Next\nTail"
    [] ["First line."] ["More text."] ["Tail"] "## Abstract" "Keywords: x; y" "# Next" "x; y"
    (by rfl) (by decide) (by decide) (by decide)
    (by rfl) (by rfl) (by decide) (by decide)
    (by rfl) (by decide) (by decide)
  refine ⟨h.1, ?_⟩
  rw [h.2]
  rfl

/-! ### Body-sanitizer idempotence: basic matcher lemmas -/

theorem dropPfx_some {p l r : List Char} (h : dropPfx p l = some r) : l = p ++ r := by
  induction p generalizing l with
  | nil => simp [dropPfx] at h; rw [h]; rfl
  | cons a p ih =>
    cases l with
    | nil => simp [dropPfx] at h
    | cons c cs =>
      by_cases hc : c = a
      · rw [hc]
        simp only [dropPfx, if_pos hc] at h
        rw [ih h]
        rfl
      · simp [dropPfx, hc] at h

theorem dropPfx_append (p t : List Char) : dropPfx p (p ++ t) = some t := by
  induction p with
  | nil => rfl
  | cons a p ih => simp [dropPfx, ih]

theorem bsOpen_two (d : Char) (ds : List Char) :
    bsOpen ('\\' :: d :: ds) = if d = '\x7b' then some ds else bsOpen (d :: ds) := rfl

theorem bsOpen_cons (c : Char) (cs : List Char) :
    bsOpen (c :: cs)
      = if c = '\\' then
          (match cs with
           | [] => none
           | d :: ds => if d = '\x7b' then some ds else bsOpen (d :: ds))
        else none := by
  conv_lhs => rw [bsOpen.eq_def]

theorem bsOpen_nonbs {c : Char} (cs : List Char) (hc : c ≠ '\\') :
    bsOpen (c :: cs) = none := by
  rw [bsOpen_cons, if_neg hc]

theorem bsOpen_some {l r : List Char} (h : bsOpen l = some r) :
    ∃ k, l = List.replicate k '\\' ++ '\\' :: '\x7b' :: r := by
  induction l with
  | nil => exact Option.noConfusion h
  | cons c cs ih =>
    by_cases hc : c = '\\'
    · subst hc
      cases cs with
      | nil => exact Option.noConfusion h
      | cons d ds =>
        by_cases hd : d = '\x7b'
        · subst hd
          rw [bsOpen_two, if_pos rfl] at h
          cases h
          exact ⟨0, rfl⟩
        · rw [bsOpen_two, if_neg hd] at h
          obtain ⟨k, hk⟩ := ih h
          exact ⟨k + 1, by rw [List.replicate_succ, List.cons_append, hk]⟩
    · rw [bsOpen_nonbs cs hc] at h
      exact Option.noConfusion h

theorem bsOpen_replicate (k : Nat) (r : List Char) :
    bsOpen (List.replicate k '\\' ++ '\\' :: '\x7b' :: r) = some r := by
  induction k with
  | zero => rw [List.replicate, List.nil_append, bsOpen_two, if_pos rfl]
  | succ k ih =>
    rw [List.replicate_succ, List.cons_append]
    cases k with
    | zero =>
      rw [List.replicate, List.nil_append] at ih ⊢
      rw [bsOpen_two, if_neg (by decide)]
      exact ih
    | succ k2 =>
      rw [List.replicate_succ, List.cons_append] at ih ⊢
      rw [bsOpen_two, if_neg (by decide)]
      exact ih

theorem advanceLA_suffix (l : List Char) : ∃ t, t ++ advanceLA l = l := by
  induction l with
  | nil => exact ⟨[], rfl⟩
  | cons c cs ih =>
    unfold advanceLA
    by_cases h : laHolds (c :: cs) = true
    · rw [if_pos h]; exact ⟨[], rfl⟩
    · rw [if_neg h]
      obtain ⟨t, ht⟩ := ih
      exact ⟨c :: t, by rw [List.cons_append, ht]⟩

theorem laHolds_nil : laHolds [] = true := by decide

theorem advanceLA_holds (l : List Char) : laHolds (advanceLA l) = true := by
  induction l with
  | nil => exact laHolds_nil
  | cons c cs ih =>
    unfold advanceLA
    by_cases h : laHolds (c :: cs) = true
    · rw [if_pos h]; exact h
    · rw [if_neg h]; exact ih

theorem scan_two (c d : Char) (ds : List Char) :
    scanToCloseBrace (c :: d :: ds)
      = if c = '\\' && d = '\x7d' then some ds else scanToCloseBrace (d :: ds) := rfl

theorem scanToCloseBrace_some {l r : List Char} (h : scanToCloseBrace l = some r) :
    ∃ u, l = u ++ '\\' :: '\x7d' :: r := by
  induction l with
  | nil => exact Option.noConfusion h
  | cons c cs ih =>
    cases cs with
    | nil => exact Option.noConfusion h
    | cons d ds =>
      by_cases hbs : c = '\\' ∧ d = '\x7d'
      · rw [scan_two, if_pos (by rw [hbs.1, hbs.2]; rfl)] at h
        cases h
        exact ⟨[], by rw [hbs.1, hbs.2]; rfl⟩
      · rw [scan_two, if_neg (by intro hb; rw [Bool.and_eq_true] at hb; simp at hb; exact hbs hb)] at h
        obtain ⟨u, hu⟩ := ih h
        exact ⟨c :: u, by rw [hu]; rfl⟩

theorem scanToCloseBrace_of_hasBS {l : List Char} (h : hasBS l) :
    ∃ r, scanToCloseBrace l = some r := by
  obtain ⟨u, v, huv⟩ := h
  subst huv
  induction u with
  | nil => exact ⟨v, by rw [List.nil_append, scan_two, if_pos (by decide)]⟩
  | cons c cs ih =>
    obtain ⟨r, hr⟩ := ih
    rw [List.cons_append]
    cases hcs : cs ++ '\\' :: '\x7d' :: v with
    | nil => exact absurd hcs (by simp)
    | cons d ds =>
      rw [hcs] at hr
      by_cases hbs : c = '\\' && d = '\x7d'
      · exact ⟨ds, by rw [scan_two, if_pos hbs]⟩
      · exact ⟨r, by rw [scan_two, if_neg hbs]; exact hr⟩

theorem hasBS_nil : ¬ hasBS [] := by
  rintro ⟨u, v, h⟩
  exact absurd h.symm (by simp)

theorem hasBS_append_left (a : List Char) {b : List Char} (h : hasBS b) :
    hasBS (a ++ b) := by
  obtain ⟨u, v, hb⟩ := h
  exact ⟨a ++ u, v, by rw [hb, List.append_assoc]⟩

theorem hasBS_cons (c : Char) {b : List Char} (h : hasBS b) : hasBS (c :: b) :=
  hasBS_append_left [c] h

theorem hasBS_extendR {a : List Char} (b : List Char) (h : hasBS a) :
    hasBS (a ++ b) := by
  obtain ⟨u, v, ha⟩ := h
  exact ⟨u, v ++ b, by rw [ha]; simp⟩

theorem hasBS_cons_cases {c : Char} {b : List Char} (h : hasBS (c :: b)) :
    (c = '\\' ∧ ∃ v, b = '\x7d' :: v) ∨ hasBS b := by
  obtain ⟨u, v, hb⟩ := h
  cases u with
  | nil =>
    rw [List.nil_append, List.cons.injEq] at hb
    exact Or.inl ⟨hb.1, v, hb.2⟩
  | cons w u' =>
    rw [List.cons_append, List.cons.injEq] at hb
    exact Or.inr ⟨u', v, hb.2⟩

theorem hasBS_append_cases {a b : List Char} (h : hasBS (a ++ b)) :
    hasBS a ∨ ((∃ u, a = u ++ ['\\']) ∧ ∃ v, b = '\x7d' :: v) ∨ hasBS b := by
  induction a with
  | nil => exact Or.inr (Or.inr (by rwa [List.nil_append] at h))
  | cons c a' ih =>
    rw [List.cons_append] at h
    rcases hasBS_cons_cases h with ⟨hc, v, hv⟩ | h2
    · cases a' with
      | nil =>
        rw [List.nil_append] at hv
        exact Or.inr (Or.inl ⟨⟨[], by rw [hc]; simp⟩, v, hv⟩)
      | cons d a'' =>
        rw [List.cons_append, List.cons.injEq] at hv
        exact Or.inl ⟨[], a'', by rw [hc, hv.1]; simp⟩
    · rcases ih h2 with h3 | ⟨⟨u, hu⟩, hv⟩ | h3
      · obtain ⟨u, v, hu⟩ := h3
        exact Or.inl ⟨c :: u, v, by rw [hu]; rfl⟩
      · exact Or.inr (Or.inl ⟨⟨c :: u, by rw [hu]; rfl⟩, hv⟩)
      · exact Or.inr (Or.inr h3)

/-! ### Characterization of the two matchers -/

theorem matchAbs_word (k : Nat) (c : Char) (t : List Char) :
    matchAbs (word1 k c ++ t)
      = if c = 'A' || c = 'a' then some (advanceLA t) else none := by
  have h1 : word1 k c ++ t
      = tokSec ++ (List.replicate k '\\' ++ '\\' :: '\x7b'
          :: (c :: ("bstract".data ++ '\\' :: '\x7d' :: t))) := by
    simp [word1, List.append_assoc]
  rw [h1]
  unfold matchAbs
  rw [dropPfx_append]
  simp only
  rw [bsOpen_replicate]
  simp only
  by_cases hc : c = 'A' || c = 'a'
  · rw [if_pos hc, if_pos hc]
    rw [show "bstract".data ++ '\\' :: '\x7d' :: t = "bstract".data ++ ('\\' :: '\x7d' :: t) from rfl]
    rw [dropPfx_append]
    simp only
    rw [if_pos (by decide)]
  · rw [if_neg hc, if_neg hc]

theorem matchAbs_some {x r : List Char} (h : matchAbs x = some r) :
    ∃ k c t, (c = 'A' ∨ c = 'a') ∧ x = word1 k c ++ t
      ∧ (∃ t1, t = t1 ++ r) ∧ laHolds r = true := by
  unfold matchAbs at h
  rcases h1 : dropPfx tokSec x with _ | r1 <;> rw [h1] at h
  · exact Option.noConfusion h
  simp only at h
  rcases h2 : bsOpen r1 with _ | r2 <;> rw [h2] at h
  · exact Option.noConfusion h
  simp only at h
  rcases hr2 : r2 with _ | ⟨c, r3⟩ <;> rw [hr2] at h
  · exact Option.noConfusion h
  simp only at h
  by_cases hc : c = 'A' || c = 'a'
  · rw [if_pos hc] at h
    rcases h3 : dropPfx "bstract".data r3 with _ | r4 <;> rw [h3] at h
    · exact Option.noConfusion h
    simp only at h
    rcases hr4 : r4 with _ | ⟨a, r4b⟩ <;> rw [hr4] at h
    · exact Option.noConfusion h
    rcases hr4b : r4b with _ | ⟨b, r5⟩ <;> rw [hr4b] at h
    · exact Option.noConfusion h
    simp only at h
    by_cases hab : a = '\\' && b = '\x7d'
    · rw [if_pos hab] at h
      rw [Option.some.injEq] at h
      obtain ⟨k, hk⟩ := bsOpen_some h2
      rw [Bool.and_eq_true] at hab
      simp only [decide_eq_true_eq] at hab
      refine ⟨k, c, r5, by simpa using hc, ?_, ?_, ?_⟩
      · rw [dropPfx_some h1, hk, hr2, dropPfx_some h3, hr4, hr4b, hab.1, hab.2]
        simp [word1, List.append_assoc]
      · obtain ⟨t1, ht1⟩ := advanceLA_suffix r5
        exact ⟨t1, by rw [← h, ht1]⟩
      · rw [← h]; exact advanceLA_holds r5
    · rw [if_neg hab] at h
      exact Option.noConfusion h
  · rw [if_neg hc] at h
    exact Option.noConfusion h

theorem matchKw_word (k : Nat) (c : Char) (t : List Char)
    (hc : c = 'K' ∨ c = 'k') (ht : hasBS t) :
    ∃ u, matchKw (word2 k c ++ t) = some u := by
  have h1 : word2 k c ++ t
      = tokSec ++ (List.replicate k '\\' ++ '\\' :: '\x7b'
          :: (c :: ("eyword".data ++ t))) := by
    simp [word2, List.append_assoc]
  rw [h1]
  unfold matchKw
  rw [dropPfx_append]
  simp only
  rw [bsOpen_replicate]
  simp only
  rw [if_pos (by rcases hc with hc | hc <;> rw [hc] <;> decide)]
  rw [dropPfx_append]
  simp only
  cases t with
  | nil => exact absurd ht hasBS_nil
  | cons a t' =>
    dsimp only
    by_cases ha : a = 's'
    · rw [if_pos ha]
      rcases hs : scanToCloseBrace t' with _ | u
      · obtain ⟨u, hu⟩ := scanToCloseBrace_of_hasBS ht
        rw [hu]
        exact ⟨advanceLA u, rfl⟩
      · exact ⟨advanceLA u, rfl⟩
    · rw [if_neg ha]
      obtain ⟨u, hu⟩ := scanToCloseBrace_of_hasBS ht
      rw [hu]
      exact ⟨advanceLA u, rfl⟩

theorem matchKw_some {x r : List Char} (h : matchKw x = some r) :
    ∃ k c t, (c = 'K' ∨ c = 'k') ∧ x = word2 k c ++ t ∧ hasBS t
      ∧ (∃ t1, t = t1 ++ r) ∧ laHolds r = true := by
  unfold matchKw at h
  rcases h1 : dropPfx tokSec x with _ | r1 <;> rw [h1] at h
  · exact Option.noConfusion h
  simp only at h
  rcases h2 : bsOpen r1 with _ | r2 <;> rw [h2] at h
  · exact Option.noConfusion h
  simp only at h
  rcases hr2 : r2 with _ | ⟨c, r3⟩ <;> rw [hr2] at h
  · exact Option.noConfusion h
  simp only at h
  by_cases hc : c = 'K' || c = 'k'
  · rw [if_pos hc] at h
    rcases h3 : dropPfx "eyword".data r3 with _ | r4 <;> rw [h3] at h
    · exact Option.noConfusion h
    simp only at h
    obtain ⟨k, hk⟩ := bsOpen_some h2
    rcases r4 with _ | ⟨a, t'⟩
    · exact Option.noConfusion h
    simp only at h
    have hx : x = word2 k c ++ (a :: t') := by
      rw [dropPfx_some h1, hk, hr2, dropPfx_some h3]
      simp [word2, List.append_assoc]
    by_cases ha : a = 's'
    · rw [if_pos ha] at h
      rcases hs : scanToCloseBrace t' with _ | u <;> rw [hs] at h
      · rcases hs2 : scanToCloseBrace (a :: t') with _ | u <;> rw [hs2] at h
        · exact Option.noConfusion h
        · rw [Option.some.injEq] at h
          obtain ⟨u0, hu0⟩ := scanToCloseBrace_some hs2
          obtain ⟨t1, ht1⟩ := advanceLA_suffix u
          have hu2 : u = t1 ++ r := by rw [← h]; exact ht1.symm
          refine ⟨k, c, a :: t', by simpa using hc, hx, ?_, ?_, ?_⟩
          · rw [hu0]
            exact ⟨u0, u, rfl⟩
          · exact ⟨u0 ++ '\\' :: '\x7d' :: t1, by rw [hu0, hu2]; simp⟩
          · rw [← h]; exact advanceLA_holds u
      · rw [Option.some.injEq] at h
        obtain ⟨u0, hu0⟩ := scanToCloseBrace_some hs
        obtain ⟨t1, ht1⟩ := advanceLA_suffix u
        have hu2 : u = t1 ++ r := by rw [← h]; exact ht1.symm
        refine ⟨k, c, a :: t', by simpa using hc, hx, ?_, ?_, ?_⟩
        · rw [hu0]
          exact hasBS_cons a ⟨u0, u, rfl⟩
        · exact ⟨a :: (u0 ++ '\\' :: '\x7d' :: t1), by rw [hu0, hu2]; simp⟩
        · rw [← h]; exact advanceLA_holds u
    · rw [if_neg ha] at h
      rcases hs : scanToCloseBrace (a :: t') with _ | u <;> rw [hs] at h
      · exact Option.noConfusion h
      · rw [Option.some.injEq] at h
        obtain ⟨u0, hu0⟩ := scanToCloseBrace_some hs
        obtain ⟨t1, ht1⟩ := advanceLA_suffix u
        have hu2 : u = t1 ++ r := by rw [← h]; exact ht1.symm
        refine ⟨k, c, a :: t', by simpa using hc, hx, ?_, ?_, ?_⟩
        · rw [hu0]
          exact ⟨u0, u, rfl⟩
        · exact ⟨u0 ++ '\\' :: '\x7d' :: t1, by rw [hu0, hu2]; simp⟩
        · rw [← h]; exact advanceLA_holds u
  · rw [if_neg hc] at h
    exact Option.noConfusion h

theorem word1_ne_nil (k : Nat) (c : Char) : word1 k c ≠ [] := by
  simp [word1, tokSec]

theorem word2_ne_nil (k : Nat) (c : Char) : word2 k c ≠ [] := by
  simp [word2, tokSec]

theorem matchAbs_consumed {l r : List Char} (h : matchAbs l = some r) :
    ∃ s, s ≠ [] ∧ l = s ++ r := by
  obtain ⟨k, c, t, _, hx, ⟨t1, ht1⟩, _⟩ := matchAbs_some h
  refine ⟨word1 k c ++ t1, by simp [word1, tokSec], ?_⟩
  rw [hx, ht1, List.append_assoc]

theorem matchKw_consumed {l r : List Char} (h : matchKw l = some r) :
    ∃ s, s ≠ [] ∧ l = s ++ r := by
  obtain ⟨k, c, t, _, hx, _, ⟨t1, ht1⟩, _⟩ := matchKw_some h
  refine ⟨word2 k c ++ t1, by simp [word2, tokSec], ?_⟩
  rw [hx, ht1, List.append_assoc]

theorem matchAbs_laHolds {l r : List Char} (h : matchAbs l = some r) :
    laHolds r = true :=
  (matchAbs_some h).choose_spec.choose_spec.choose_spec.2.2.2

theorem matchKw_laHolds {l r : List Char} (h : matchKw l = some r) :
    laHolds r = true :=
  (matchKw_some h).choose_spec.choose_spec.choose_spec.2.2.2.2

theorem consumed_len {m : List Char → Option (List Char)}
    (hcons : ∀ l r, m l = some r → ∃ s, s ≠ [] ∧ l = s ++ r)
    {l r : List Char} (h : m l = some r) : r.length < l.length := by
  obtain ⟨s, hs, hl⟩ := hcons l r h
  rw [hl, List.length_append]
  cases s with
  | nil => exact absurd rfl hs
  | cons a s' => simp

/-! ### The scanner of `re.sub` -/

theorem subF_cons (m : List Char → Option (List Char)) (n : Nat) (c : Char)
    (cs : List Char) :
    subF m (n + 1) (c :: cs)
      = match m (c :: cs) with
        | some r => subF m n r
        | none => c :: subF m n cs := rfl

theorem subF_irrel (m : List Char → Option (List Char))
    (hcons : ∀ l r, m l = some r → ∃ s, s ≠ [] ∧ l = s ++ r) :
    ∀ n1 n2 l, l.length ≤ n1 → l.length ≤ n2 → subF m n1 l = subF m n2 l := by
  intro n1
  induction n1 with
  | zero =>
    intro n2 l h1 h2
    have : l = [] := List.length_eq_zero.mp (Nat.le_zero.mp h1)
    subst this
    cases n2 with
    | zero => rfl
    | succ n2 => rfl
  | succ n1 ih =>
    intro n2 l h1 h2
    cases l with
    | nil =>
      cases n2 with
      | zero => rfl
      | succ n2 => rfl
    | cons c cs =>
      cases n2 with
      | zero => exact absurd h2 (by simp)
      | succ n2 =>
        rw [subF_cons, subF_cons]
        rcases hm : m (c :: cs) with _ | r
        · simp only
          have hlen : cs.length ≤ n1 := by
            rw [List.length_cons] at h1
            omega
          have hlen2 : cs.length ≤ n2 := by
            rw [List.length_cons] at h2
            omega
          rw [ih n2 cs hlen hlen2]
        · simp only
          have hr := consumed_len hcons hm
          rw [List.length_cons] at h1 h2 hr
          exact ih n2 r (by omega) (by omega)

theorem subM_cons_some {m : List Char → Option (List Char)}
    (hcons : ∀ l r, m l = some r → ∃ s, s ≠ [] ∧ l = s ++ r)
    {c : Char} {cs r : List Char} (h : m (c :: cs) = some r) :
    subM m (c :: cs) = subM m r := by
  unfold subM
  rw [List.length_cons, subF_cons, h]
  have hr := consumed_len hcons h
  rw [List.length_cons] at hr
  exact subF_irrel m hcons cs.length r.length r (by omega) (le_refl _)

theorem subM_cons_none {m : List Char → Option (List Char)}
    {c : Char} {cs : List Char} (h : m (c :: cs) = none) :
    subM m (c :: cs) = c :: subM m cs := by
  unfold subM
  rw [List.length_cons, subF_cons, h]

theorem subM_decomp (m : List Char → Option (List Char))
    (hcons : ∀ l r, m l = some r → ∃ s, s ≠ [] ∧ l = s ++ r) :
    ∀ l, subM m l = l
      ∨ ∃ p s r, l = p ++ (s ++ r) ∧ s ≠ [] ∧ m (s ++ r) = some r
          ∧ subM m l = p ++ subM m r := by
  intro l
  induction l with
  | nil => exact Or.inl rfl
  | cons c cs ih =>
    rcases hm : m (c :: cs) with _ | r
    · rcases ih with ih | ⟨p, s, r, hl, hs, hmr, hsub⟩
      · refine Or.inl ?_
        rw [subM_cons_none hm, ih]
      · refine Or.inr ⟨c :: p, s, r, by rw [List.cons_append, ← hl], hs, hmr, ?_⟩
        rw [subM_cons_none hm, hsub]
        rfl
    · obtain ⟨s, hs, hl⟩ := hcons _ _ hm
      refine Or.inr ⟨[], s, r, by rw [List.nil_append, ← hl], hs, by rw [← hl]; exact hm, ?_⟩
      rw [subM_cons_some hcons hm, List.nil_append]

/-! ### Structure of the pattern words -/

theorem pairsOk_cons_eq (a b : Char) (t : List Char) :
    pairsOk (a :: b :: t)
      = ((if a = '\\' then (b = '\\' || b = '\x7b' || b = '\x7d') else true)
          && pairsOk (b :: t)) := by
  conv_lhs => rw [pairsOk.eq_def]

theorem pairsOk_tail {a : Char} {t : List Char} (h : pairsOk (a :: t) = true) :
    pairsOk t = true := by
  cases t with
  | nil => rfl
  | cons b t' =>
    rw [pairsOk_cons_eq, Bool.and_eq_true] at h
    exact h.2

theorem pairsOk_adj {l : List Char} (h : pairsOk l = true) :
    ∀ y α z, l = y ++ '\\' :: α :: z → (α = '\\' ∨ α = '\x7b' ∨ α = '\x7d') := by
  intro y
  induction y generalizing l with
  | nil =>
    intro α z hl
    subst hl
    rw [List.nil_append] at h
    rw [pairsOk_cons_eq, Bool.and_eq_true] at h
    have h1 := h.1
    rw [if_pos rfl, Bool.or_eq_true, Bool.or_eq_true] at h1
    have h2 : (α = '\\' ∨ α = '\x7b') ∨ α = '\x7d' := by simpa using h1
    tauto
  | cons c y' ih =>
    intro α z hl
    subst hl
    rw [List.cons_append] at h
    exact ih (pairsOk_tail h) α z rfl

theorem pairsOk_cons_of {x : Char} {rest : List Char} (hx : x ≠ '\\')
    (h : pairsOk rest = true) : pairsOk (x :: rest) = true := by
  cases rest with
  | nil => rfl
  | cons b t => rw [pairsOk_cons_eq, if_neg hx, Bool.true_and]; exact h

theorem pairsOk_bs_cons {rest : List Char}
    (hh : ∀ b t, rest = b :: t → (b = '\\' ∨ b = '\x7b' ∨ b = '\x7d'))
    (h : pairsOk rest = true) : pairsOk ('\\' :: rest) = true := by
  cases rest with
  | nil => rfl
  | cons b t =>
    rw [pairsOk_cons_eq, if_pos rfl, Bool.and_eq_true]
    refine ⟨?_, h⟩
    rcases hh b t rfl with hb | hb | hb <;> rw [hb] <;> decide

theorem rep_head (k : Nat) (r : List Char) :
    ∀ b t, List.replicate k '\\' ++ '\\' :: r = b :: t → b = '\\' := by
  intro b t h
  cases k with
  | zero => rw [List.replicate, List.nil_append, List.cons.injEq] at h; exact h.1.symm
  | succ k => rw [List.replicate_succ, List.cons_append, List.cons.injEq] at h; exact h.1.symm

theorem pairsOk_rep (c : Char) (post : List Char) (hc : c ≠ '\\')
    (hpost : pairsOk (c :: post) = true) :
    ∀ k, pairsOk (List.replicate k '\\' ++ '\\' :: '\x7b' :: c :: post) = true := by
  intro k
  induction k with
  | zero =>
    rw [List.replicate, List.nil_append]
    exact pairsOk_bs_cons (fun b t h => Or.inr (Or.inl (List.cons.injEq .. ▸ h).1.symm))
      (pairsOk_cons_of (by decide) hpost)
  | succ k ih =>
    rw [List.replicate_succ, List.cons_append]
    exact pairsOk_bs_cons (fun b t h => Or.inl (rep_head k _ b t h)) ih

theorem pairsOk_word_tail (k : Nat) (c : Char) (post : List Char) (hc : c ≠ '\\')
    (hpost : pairsOk (c :: post) = true) :
    pairsOk ("section".data ++ (List.replicate k '\\' ++ '\\' :: '\x7b' :: c :: post))
      = true := by
  show pairsOk ('s' :: 'e' :: 'c' :: 't' :: 'i' :: 'o' :: 'n'
    :: (List.replicate k '\\' ++ '\\' :: '\x7b' :: c :: post)) = true
  refine pairsOk_cons_of (by decide) ?_
  refine pairsOk_cons_of (by decide) ?_
  refine pairsOk_cons_of (by decide) ?_
  refine pairsOk_cons_of (by decide) ?_
  refine pairsOk_cons_of (by decide) ?_
  refine pairsOk_cons_of (by decide) ?_
  refine pairsOk_cons_of (by decide) ?_
  exact pairsOk_rep c post hc hpost k

theorem word1_expose (k : Nat) (c : Char) :
    word1 k c = '\\' :: ("section".data
      ++ (List.replicate k '\\' ++ '\\' :: '\x7b' :: c :: ("bstract".data ++ ['\\', '\x7d']))) := by
  rw [word1, show tokSec = '\\' :: "section".data from rfl]
  simp [List.append_assoc]

theorem word2_expose (k : Nat) (c : Char) :
    word2 k c = '\\' :: ("section".data
      ++ (List.replicate k '\\' ++ '\\' :: '\x7b' :: c :: "eyword".data)) := by
  rw [word2, show tokSec = '\\' :: "section".data from rfl]
  simp [List.append_assoc]

theorem word1_adj {k : Nat} {c : Char} (hc : c = 'A' ∨ c = 'a') :
    ∀ y α z, word1 k c = y ++ '\\' :: α :: z → y ≠ []
      → (α = '\\' ∨ α = '\x7b' ∨ α = '\x7d') := by
  intro y α z h hy
  have hcbs : c ≠ '\\' := by rcases hc with rfl | rfl <;> decide
  have hpost : pairsOk (c :: ("bstract".data ++ ['\\', '\x7d'])) = true := by
    refine pairsOk_cons_of hcbs ?_
    decide
  have hT := pairsOk_word_tail k c ("bstract".data ++ ['\\', '\x7d']) hcbs hpost
  cases y with
  | nil => exact absurd rfl hy
  | cons y0 y' =>
    have h2 : '\\' :: ("section".data ++ (List.replicate k '\\' ++ '\\' :: '\x7b' :: c
        :: ("bstract".data ++ ['\\', '\x7d']))) = y0 :: (y' ++ '\\' :: α :: z) := by
      rw [← word1_expose, h]
      rfl
    injection h2 with h3 h4
    exact pairsOk_adj hT y' α z h4

theorem word2_adj {k : Nat} {c : Char} (hc : c = 'K' ∨ c = 'k') :
    ∀ y α z, word2 k c = y ++ '\\' :: α :: z → y ≠ []
      → (α = '\\' ∨ α = '\x7b' ∨ α = '\x7d') := by
  intro y α z h hy
  have hcbs : c ≠ '\\' := by rcases hc with rfl | rfl <;> decide
  have hpost : pairsOk (c :: "eyword".data) = true := by
    refine pairsOk_cons_of hcbs ?_
    decide
  have hT := pairsOk_word_tail k c "eyword".data hcbs hpost
  cases y with
  | nil => exact absurd rfl hy
  | cons y0 y' =>
    have h2 : '\\' :: ("section".data ++ (List.replicate k '\\' ++ '\\' :: '\x7b' :: c
        :: "eyword".data)) = y0 :: (y' ++ '\\' :: α :: z) := by
      rw [← word2_expose, h]
      rfl
    injection h2 with h3 h4
    exact pairsOk_adj hT y' α z h4

theorem word1_last {k : Nat} {c : Char} {y : List Char} {x : Char}
    (h : word1 k c = y ++ [x]) : x = '\x7d' := by
  have h1 : (word1 k c).getLast? = some '\x7d' := by
    rw [word1_expose]
    rw [show ("bstract".data ++ ['\\', '\x7d'] : List Char)
        = ("bstract".data ++ ['\\']) ++ ['\x7d'] from by simp]
    rw [show ('\\' :: ("section".data ++ (List.replicate k '\\' ++ '\\' :: '\x7b' :: c
        :: (("bstract".data ++ ['\\']) ++ ['\x7d']))) : List Char)
      = ('\\' :: ("section".data ++ (List.replicate k '\\' ++ '\\' :: '\x7b' :: c
        :: ("bstract".data ++ ['\\'])))) ++ ['\x7d'] from by simp]
    exact List.getLast?_concat _
  rw [h, List.getLast?_concat] at h1
  injection h1

theorem word2_last {k : Nat} {c : Char} {y : List Char} {x : Char}
    (h : word2 k c = y ++ [x]) : x = 'd' := by
  have h1 : (word2 k c).getLast? = some 'd' := by
    rw [word2_expose]
    rw [show ("eyword".data : List Char) = "eywor".data ++ ['d'] from rfl]
    rw [show ('\\' :: ("section".data ++ (List.replicate k '\\' ++ '\\' :: '\x7b' :: c
        :: ("eywor".data ++ ['d']))) : List Char)
      = ('\\' :: ("section".data ++ (List.replicate k '\\' ++ '\\' :: '\x7b' :: c
        :: "eywor".data))) ++ ['d'] from by simp]
    exact List.getLast?_concat _
  rw [h, List.getLast?_concat] at h1
  injection h1

theorem word1_nl {k : Nat} {c : Char} (hc : c = 'A' ∨ c = 'a') : '\n' ∉ word1 k c := by
  rw [word1_expose]
  intro hmem
  rcases hc with rfl | rfl <;>
    simp [List.mem_append, List.mem_replicate] at hmem

theorem word2_nl {k : Nat} {c : Char} (hc : c = 'K' ∨ c = 'k') : '\n' ∉ word2 k c := by
  rw [word2_expose]
  intro hmem
  rcases hc with rfl | rfl <;>
    simp [List.mem_append, List.mem_replicate] at hmem

theorem laHolds_cases {l : List Char} (h : laHolds l = true) :
    (∃ t, l = tokSec ++ t) ∨ (∃ t, l = tokSub ++ t) ∨ (∃ t, l = tokSubsub ++ t)
      ∨ (∃ t, l = tokPar ++ t) ∨ (∃ t, l = tokEnd ++ t) ∨ l = [] ∨ l = ['\n'] := by
  unfold laHolds at h
  rw [Bool.or_eq_true, Bool.or_eq_true, Bool.or_eq_true, Bool.or_eq_true,
    Bool.or_eq_true, Bool.or_eq_true] at h
  rcases h with ((((((h | h) | h) | h) | h) | h) | h)
  · rcases hs : dropPfx tokSec l with _ | r
    · rw [hs] at h; simp at h
    · exact Or.inl ⟨r, dropPfx_some hs⟩
  · rcases hs : dropPfx tokSub l with _ | r
    · rw [hs] at h; simp at h
    · exact Or.inr (Or.inl ⟨r, dropPfx_some hs⟩)
  · rcases hs : dropPfx tokSubsub l with _ | r
    · rw [hs] at h; simp at h
    · exact Or.inr (Or.inr (Or.inl ⟨r, dropPfx_some hs⟩))
  · rcases hs : dropPfx tokPar l with _ | r
    · rw [hs] at h; simp at h
    · exact Or.inr (Or.inr (Or.inr (Or.inl ⟨r, dropPfx_some hs⟩)))
  · rcases hs : dropPfx tokEnd l with _ | r
    · rw [hs] at h; simp at h
    · exact Or.inr (Or.inr (Or.inr (Or.inr (Or.inl ⟨r, dropPfx_some hs⟩))))
  · exact Or.inr (Or.inr (Or.inr (Or.inr (Or.inr (Or.inl (List.isEmpty_iff.mp h))))))
  · exact Or.inr (Or.inr (Or.inr (Or.inr (Or.inr (Or.inr (by simpa using h))))))

theorem isWord1_adj : ∀ w y α z, IsWord1 w → w = y ++ '\\' :: α :: z → y ≠ []
    → (α = '\\' ∨ α = '\x7b' ∨ α = '\x7d') := by
  rintro w y α z ⟨k, c, hc, rfl⟩ h hy
  exact word1_adj hc y α z h hy

theorem isWord1_last : ∀ w y x, IsWord1 w → w = y ++ [x] → (x = '\x7d' ∨ x = 'd') := by
  rintro w y x ⟨k, c, hc, rfl⟩ h
  exact Or.inl (word1_last h)

theorem isWord1_nl : ∀ w, IsWord1 w → '\n' ∉ w := by
  rintro w ⟨k, c, hc, rfl⟩
  exact word1_nl hc

theorem isWord2_adj : ∀ w y α z, IsWord2 w → w = y ++ '\\' :: α :: z → y ≠ []
    → (α = '\\' ∨ α = '\x7b' ∨ α = '\x7d') := by
  rintro w y α z ⟨k, c, hc, rfl⟩ h hy
  exact word2_adj hc y α z h hy

theorem isWord2_last : ∀ w y x, IsWord2 w → w = y ++ [x] → (x = '\x7d' ∨ x = 'd') := by
  rintro w y x ⟨k, c, hc, rfl⟩ h
  exact Or.inr (word2_last h)

theorem isWord2_nl : ∀ w, IsWord2 w → '\n' ∉ w := by
  rintro w ⟨k, c, hc, rfl⟩
  exact word2_nl hc

theorem leaf_no_word_suffix
    (W : List Char → Prop)
    (hadj : ∀ w y α z, W w → w = y ++ '\\' :: α :: z → y ≠ []
      → (α = '\\' ∨ α = '\x7b' ∨ α = '\x7d'))
    (hlast : ∀ w y x, W w → w = y ++ [x] → (x = '\x7d' ∨ x = 'd'))
    (hnl : ∀ w, W w → '\n' ∉ w) :
    ∀ l, laHolds l = true → ∀ x w t, x ≠ [] → w ≠ [] → W (x ++ w)
      → w ++ t = l → False := by
  intro l hla x w t hx hw hW hwt
  have key : ∀ (τ : Char) (rest : List Char), (τ = 's' ∨ τ = 'p' ∨ τ = 'e') →
      w ++ t = '\\' :: τ :: rest → False := by
    intro τ rest hτ heq
    cases w with
    | nil => exact hw rfl
    | cons w0 w' =>
      rw [List.cons_append, List.cons.injEq] at heq
      obtain ⟨h0, h2⟩ := heq
      cases w' with
      | nil =>
        have hl := hlast (x ++ [w0]) x w0 hW rfl
        rw [h0] at hl
        rcases hl with hh | hh <;> exact absurd hh (by decide)
      | cons w1 w'' =>
        rw [List.cons_append, List.cons.injEq] at h2
        obtain ⟨h1, _⟩ := h2
        have hα := hadj (x ++ w0 :: w1 :: w'') x w1 w'' hW (by rw [h0]) hx
        rw [h1] at hα
        rcases hτ with rfl | rfl | rfl <;>
          rcases hα with hh | hh | hh <;> exact absurd hh (by decide)
  rcases laHolds_cases hla with ⟨t', rfl⟩ | ⟨t', rfl⟩ | ⟨t', rfl⟩ | ⟨t', rfl⟩ | ⟨t', rfl⟩ | rfl | rfl
  · exact key 's' ("ection".data ++ t') (Or.inl rfl) hwt
  · exact key 's' ("ubsection".data ++ t') (Or.inl rfl) hwt
  · exact key 's' ("ubsubsection".data ++ t') (Or.inl rfl) hwt
  · exact key 'p' ("aragraph".data ++ t') (Or.inr (Or.inl rfl)) hwt
  · exact key 'e' (('n' :: 'd' :: '\\' :: '\x7b' :: "document".data ++ ['\\', '\x7d']) ++ t')
      (Or.inr (Or.inr rfl)) hwt
  · exact hw (List.append_eq_nil.mp hwt).1
  · cases w with
    | nil => exact hw rfl
    | cons w0 w' =>
      rw [List.cons_append, List.cons.injEq] at hwt
      refine hnl _ hW (List.mem_append_right x ?_)
      rw [← hwt.1]
      exact List.mem_cons_self _ _

theorem subM_nil (m : List Char → Option (List Char)) : subM m [] = [] := rfl

theorem subM_no_word_suffix
    (m : List Char → Option (List Char))
    (hcons : ∀ l r, m l = some r → ∃ s, s ≠ [] ∧ l = s ++ r)
    (hla : ∀ l r, m l = some r → laHolds r = true)
    (W : List Char → Prop)
    (hadj : ∀ w y α z, W w → w = y ++ '\\' :: α :: z → y ≠ []
      → (α = '\\' ∨ α = '\x7b' ∨ α = '\x7d'))
    (hlast : ∀ w y x, W w → w = y ++ [x] → (x = '\x7d' ∨ x = 'd'))
    (hnl : ∀ w, W w → '\n' ∉ w) :
    ∀ n l, l.length ≤ n → laHolds l = true →
      ∀ x w t, x ≠ [] → w ≠ [] → W (x ++ w) → w ++ t = subM m l → False := by
  intro n
  induction n with
  | zero =>
    intro l hlen hl x w t hx hw hW hwt
    have hnil : l = [] := List.length_eq_zero.mp (Nat.le_zero.mp hlen)
    subst hnil
    rw [subM_nil] at hwt
    exact hw (List.append_eq_nil.mp hwt).1
  | succ n ih =>
    intro l hlen hl x w t hx hw hW hwt
    rcases subM_decomp m hcons l with hid | ⟨p, s, r, hlp, hs, hmr, hsub⟩
    · rw [hid] at hwt
      exact leaf_no_word_suffix W hadj hlast hnl l hl x w t hx hw hW hwt
    · rw [hsub] at hwt
      rcases List.append_eq_append_iff.mp hwt with ⟨a', ha1, ha2⟩ | ⟨c', hc1, hc2⟩
      · refine leaf_no_word_suffix W hadj hlast hnl l hl x w (a' ++ (s ++ r)) hx hw hW ?_
        rw [hlp, ha1]
        simp [List.append_assoc]
      · cases c' with
        | nil =>
          rw [List.append_nil] at hc1
          refine leaf_no_word_suffix W hadj hlast hnl l hl x w (s ++ r) hx hw hW ?_
          rw [hlp, hc1]
        | cons c0 c'' =>
          have hrlen : r.length ≤ n := by
            have : l.length = p.length + (s.length + r.length) := by
              rw [hlp, List.length_append, List.length_append]
            cases s with
            | nil => exact absurd rfl hs
            | cons s0 s' =>
              rw [List.length_cons] at this
              omega
          refine ih r hrlen (hla _ _ hmr) (x ++ p) (c0 :: c'') t (by simp [hx]) (by simp)
            ?_ hc2.symm
          rw [List.append_assoc, ← hc1]
          exact hW

theorem subM_head_not_brace
    (m : List Char → Option (List Char))
    (hcons : ∀ l r, m l = some r → ∃ s, s ≠ [] ∧ l = s ++ r)
    (hla : ∀ l r, m l = some r → laHolds r = true) :
    ∀ n l, l.length ≤ n → laHolds l = true → ∀ v, subM m l = '\x7d' :: v → False := by
  intro n
  induction n with
  | zero =>
    intro l hlen hl v hv
    have hnil : l = [] := List.length_eq_zero.mp (Nat.le_zero.mp hlen)
    subst hnil
    rw [subM_nil] at hv
    exact List.noConfusion hv
  | succ n ih =>
    intro l hlen hl v hv
    rcases subM_decomp m hcons l with hid | ⟨p, s, r, hlp, hs, hmr, hsub⟩
    · rw [hid] at hv
      subst hv
      rcases laHolds_cases hl with ⟨t', ht⟩ | ⟨t', ht⟩ | ⟨t', ht⟩ | ⟨t', ht⟩ | ⟨t', ht⟩ | ht | ht
      · exact absurd (List.cons.injEq .. ▸ ht).1 (by decide)
      · exact absurd (List.cons.injEq .. ▸ ht).1 (by decide)
      · exact absurd (List.cons.injEq .. ▸ ht).1 (by decide)
      · exact absurd (List.cons.injEq .. ▸ ht).1 (by decide)
      · exact absurd (List.cons.injEq .. ▸ ht).1 (by decide)
      · exact List.noConfusion ht
      · exact absurd (List.cons.injEq .. ▸ ht).1 (by decide)
    · rw [hsub] at hv
      cases p with
      | nil =>
        rw [List.nil_append] at hv
        have hrlen : r.length ≤ n := by
          have : l.length = 0 + (s.length + r.length) := by
            rw [hlp, List.length_append, List.length_append]
            rfl
          cases s with
          | nil => exact absurd rfl hs
          | cons s0 s' =>
            rw [List.length_cons] at this
            omega
        exact ih r hrlen (hla _ _ hmr) v hv
      | cons p0 p' =>
        rw [List.cons_append, List.cons.injEq] at hv
        have hp0 : p0 = '\x7d' := hv.1
        rcases laHolds_cases hl with ⟨t', ht⟩ | ⟨t', ht⟩ | ⟨t', ht⟩ | ⟨t', ht⟩ | ⟨t', ht⟩ | ht | ht
        all_goals rw [hlp] at ht
        · exact absurd (hp0 ▸ (List.cons.injEq .. ▸ ht.symm).1) (by decide)
        · exact absurd (hp0 ▸ (List.cons.injEq .. ▸ ht.symm).1) (by decide)
        · exact absurd (hp0 ▸ (List.cons.injEq .. ▸ ht.symm).1) (by decide)
        · exact absurd (hp0 ▸ (List.cons.injEq .. ▸ ht.symm).1) (by decide)
        · exact absurd (hp0 ▸ (List.cons.injEq .. ▸ ht.symm).1) (by decide)
        · exact List.noConfusion ht
        · exact absurd (hp0 ▸ (List.cons.injEq .. ▸ ht.symm).1) (by decide)

theorem hasBS_subM
    (m : List Char → Option (List Char))
    (hcons : ∀ l r, m l = some r → ∃ s, s ≠ [] ∧ l = s ++ r)
    (hla : ∀ l r, m l = some r → laHolds r = true) :
    ∀ n l, l.length ≤ n → hasBS (subM m l) → hasBS l := by
  intro n
  induction n with
  | zero =>
    intro l hlen h
    have hnil : l = [] := List.length_eq_zero.mp (Nat.le_zero.mp hlen)
    subst hnil
    rw [subM_nil] at h
    exact absurd h hasBS_nil
  | succ n ih =>
    intro l hlen h
    cases l with
    | nil =>
      rw [subM_nil] at h
      exact absurd h hasBS_nil
    | cons c cs =>
      rw [List.length_cons] at hlen
      rcases hm : m (c :: cs) with _ | r
      · rw [subM_cons_none hm] at h
        rcases hasBS_cons_cases h with ⟨hc, v, hv⟩ | h2
        · cases cs with
          | nil =>
            rw [subM_nil] at hv
            exact List.noConfusion hv
          | cons c2 cs2 =>
            rcases hm2 : m (c2 :: cs2) with _ | r2
            · rw [subM_cons_none hm2] at hv
              injection hv with hv1 hv2
              exact ⟨[], cs2, by rw [hc, hv1]; rfl⟩
            · rw [subM_cons_some hcons hm2] at hv
              exact (subM_head_not_brace m hcons hla r2.length r2 (le_refl _)
                (hla _ _ hm2) v hv).elim
        · exact hasBS_cons c (ih cs (by omega) h2)
      · rw [subM_cons_some hcons hm] at h
        obtain ⟨s, hs, hl⟩ := hcons _ _ hm
        have hrlen : r.length ≤ n := by
          have := consumed_len hcons hm
          rw [List.length_cons] at this
          omega
        rw [hl]
        exact hasBS_append_left s (ih r hrlen h)

/-! ### No new match appears at the head after a sub pass -/

theorem khead_abs (m : List Char → Option (List Char))
    (hcons : ∀ l r, m l = some r → ∃ s, s ≠ [] ∧ l = s ++ r)
    (hla : ∀ l r, m l = some r → laHolds r = true)
    {c : Char} {cs : List Char} (h : matchAbs (c :: cs) = none) :
    matchAbs (c :: subM m cs) = none := by
  rcases hres : matchAbs (c :: subM m cs) with _ | r
  · rfl
  exfalso
  obtain ⟨k, γ, t, hγ, hx, _, _⟩ := matchAbs_some hres
  have hγb : (γ = 'A' || γ = 'a') = true := by rcases hγ with rfl | rfl <;> decide
  rcases subM_decomp m hcons cs with hid | ⟨p, s, r', hlp, hs, hmr, hsub⟩
  · rw [hid] at hx
    rw [hx, matchAbs_word, if_pos hγb] at h
    exact Option.noConfusion h
  · rw [hsub] at hx
    have hx2 : (c :: p) ++ subM m r' = word1 k γ ++ t := by rw [← hx]; rfl
    rcases List.append_eq_append_iff.mp hx2 with ⟨a', ha1, ha2⟩ | ⟨c', hc1, hc2⟩
    · cases a' with
      | nil =>
        rw [List.append_nil] at ha1
        have hceq : c :: cs = word1 k γ ++ (s ++ r') := by rw [hlp, ha1]; rfl
        rw [hceq, matchAbs_word, if_pos hγb] at h
        exact Option.noConfusion h
      | cons a0 a'' =>
        exact subM_no_word_suffix m hcons hla IsWord1 isWord1_adj isWord1_last isWord1_nl
          r'.length r' (le_refl _) (hla _ _ hmr) (c :: p) (a0 :: a'') t
          (by simp) (by simp) ⟨k, γ, hγ, ha1.symm⟩ ha2.symm
    · have hceq : c :: cs = word1 k γ ++ (c' ++ (s ++ r')) := by
        rw [hlp, show (c :: (p ++ (s ++ r')) : List Char) = (c :: p) ++ (s ++ r') from rfl,
          hc1, List.append_assoc]
      rw [hceq, matchAbs_word, if_pos hγb] at h
      exact Option.noConfusion h

theorem khead_kw (m : List Char → Option (List Char))
    (hcons : ∀ l r, m l = some r → ∃ s, s ≠ [] ∧ l = s ++ r)
    (hla : ∀ l r, m l = some r → laHolds r = true)
    {c : Char} {cs : List Char} (h : matchKw (c :: cs) = none) :
    matchKw (c :: subM m cs) = none := by
  rcases hres : matchKw (c :: subM m cs) with _ | r
  · rfl
  exfalso
  obtain ⟨k, γ, t, hγ, hx, hbs, _, _⟩ := matchKw_some hres
  rcases subM_decomp m hcons cs with hid | ⟨p, s, r', hlp, hs, hmr, hsub⟩
  · rw [hid] at hx
    obtain ⟨u, hu⟩ := matchKw_word k γ t hγ hbs
    rw [← hx, h] at hu
    exact Option.noConfusion hu
  · rw [hsub] at hx
    have hx2 : (c :: p) ++ subM m r' = word2 k γ ++ t := by rw [← hx]; rfl
    rcases List.append_eq_append_iff.mp hx2 with ⟨a', ha1, ha2⟩ | ⟨c', hc1, hc2⟩
    · cases a' with
      | nil =>
        rw [List.append_nil] at ha1
        rw [List.nil_append] at ha2
        have hbr : hasBS r' := hasBS_subM m hcons hla r'.length r' (le_refl _) (ha2 ▸ hbs)
        obtain ⟨u, hu⟩ := matchKw_word k γ (s ++ r') hγ (hasBS_append_left s hbr)
        have hceq : c :: cs = word2 k γ ++ (s ++ r') := by rw [hlp, ha1]; rfl
        rw [← hceq, h] at hu
        exact Option.noConfusion hu
      | cons a0 a'' =>
        exact subM_no_word_suffix m hcons hla IsWord2 isWord2_adj isWord2_last isWord2_nl
          r'.length r' (le_refl _) (hla _ _ hmr) (c :: p) (a0 :: a'') t
          (by simp) (by simp) ⟨k, γ, hγ, ha1.symm⟩ ha2.symm
    · have hceq : c :: cs = word2 k γ ++ (c' ++ (s ++ r')) := by
        rw [hlp, show (c :: (p ++ (s ++ r')) : List Char) = (c :: p) ++ (s ++ r') from rfl,
          hc1, List.append_assoc]
      rcases hasBS_append_cases (hc2 ▸ hbs) with h1 | ⟨⟨u, hu⟩, v, hv⟩ | h1
      · obtain ⟨uu, huu⟩ := matchKw_word k γ (c' ++ (s ++ r')) hγ (hasBS_extendR _ h1)
        rw [← hceq, h] at huu
        exact Option.noConfusion huu
      · exact subM_head_not_brace m hcons hla r'.length r' (le_refl _) (hla _ _ hmr) v hv
      · have hbr : hasBS r' := hasBS_subM m hcons hla r'.length r' (le_refl _) h1
        obtain ⟨uu, huu⟩ := matchKw_word k γ (c' ++ (s ++ r')) hγ
          (hasBS_append_left c' (hasBS_append_left s hbr))
        rw [← hceq, h] at huu
        exact Option.noConfusion huu

/-! ### Assembling idempotence -/

theorem NoM_suffix {m : List Char → Option (List Char)} {l x y : List Char}
    (h : NoM m l) (hxy : l = x ++ y) : NoM m y := by
  intro a b hab
  exact h (x ++ a) b (by rw [hxy, hab, List.append_assoc])

theorem NoM_cons {m : List Char → Option (List Char)} {c : Char} {z : List Char}
    (hhead : m (c :: z) = none) (htail : NoM m z) : NoM m (c :: z) := by
  intro x y hxy
  cases x with
  | nil => rw [List.nil_append] at hxy; rw [← hxy]; exact hhead
  | cons a x' =>
    injection hxy with h1 h2
    exact htail x' y h2

theorem NoM_nil {m : List Char → Option (List Char)} (h : m [] = none) : NoM m [] := by
  intro x y hxy
  have := List.append_eq_nil.mp hxy.symm
  rw [this.2]
  exact h

theorem subM_id_of_NoM {m : List Char → Option (List Char)} {l : List Char}
    (h : NoM m l) : subM m l = l := by
  induction l with
  | nil => exact subM_nil m
  | cons c cs ih =>
    rw [subM_cons_none (h [] (c :: cs) rfl)]
    rw [ih (NoM_suffix h (show c :: cs = [c] ++ cs from rfl))]

theorem matchAbs_nil : matchAbs [] = none := rfl

theorem matchKw_nil : matchKw [] = none := rfl

theorem noM1_sub1 : ∀ n l, l.length ≤ n → NoM matchAbs (subM matchAbs l) := by
  intro n
  induction n with
  | zero =>
    intro l hlen
    have hnil : l = [] := List.length_eq_zero.mp (Nat.le_zero.mp hlen)
    subst hnil
    rw [subM_nil]
    exact NoM_nil matchAbs_nil
  | succ n ih =>
    intro l hlen
    cases l with
    | nil =>
      rw [subM_nil]
      exact NoM_nil matchAbs_nil
    | cons c cs =>
      rw [List.length_cons] at hlen
      rcases hm : matchAbs (c :: cs) with _ | r
      · rw [subM_cons_none hm]
        exact NoM_cons
          (khead_abs matchAbs (fun l r h => matchAbs_consumed h)
            (fun l r h => matchAbs_laHolds h) hm)
          (ih cs (by omega))
      · rw [subM_cons_some (fun l r h => matchAbs_consumed h) hm]
        have := consumed_len (fun l r h => matchAbs_consumed h) hm
        rw [List.length_cons] at this
        exact ih r (by omega)

theorem noM2_sub2 : ∀ n l, l.length ≤ n → NoM matchKw (subM matchKw l) := by
  intro n
  induction n with
  | zero =>
    intro l hlen
    have hnil : l = [] := List.length_eq_zero.mp (Nat.le_zero.mp hlen)
    subst hnil
    rw [subM_nil]
    exact NoM_nil matchKw_nil
  | succ n ih =>
    intro l hlen
    cases l with
    | nil =>
      rw [subM_nil]
      exact NoM_nil matchKw_nil
    | cons c cs =>
      rw [List.length_cons] at hlen
      rcases hm : matchKw (c :: cs) with _ | r
      · rw [subM_cons_none hm]
        exact NoM_cons
          (khead_kw matchKw (fun l r h => matchKw_consumed h)
            (fun l r h => matchKw_laHolds h) hm)
          (ih cs (by omega))
      · rw [subM_cons_some (fun l r h => matchKw_consumed h) hm]
        have := consumed_len (fun l r h => matchKw_consumed h) hm
        rw [List.length_cons] at this
        exact ih r (by omega)

theorem noM1_sub2 : ∀ n l, l.length ≤ n → NoM matchAbs l
    → NoM matchAbs (subM matchKw l) := by
  intro n
  induction n with
  | zero =>
    intro l hlen h
    have hnil : l = [] := List.length_eq_zero.mp (Nat.le_zero.mp hlen)
    subst hnil
    rw [subM_nil]
    exact h
  | succ n ih =>
    intro l hlen h
    cases l with
    | nil =>
      rw [subM_nil]
      exact h
    | cons c cs =>
      rw [List.length_cons] at hlen
      rcases hm : matchKw (c :: cs) with _ | r
      · rw [subM_cons_none hm]
        exact NoM_cons
          (khead_abs matchKw (fun l r h => matchKw_consumed h)
            (fun l r h => matchKw_laHolds h) (h [] (c :: cs) rfl))
          (ih cs (by omega) (NoM_suffix h (show c :: cs = [c] ++ cs from rfl)))
      · rw [subM_cons_some (fun l r h => matchKw_consumed h) hm]
        obtain ⟨s, hs, hl⟩ := matchKw_consumed hm
        have hlen2 := consumed_len (fun l r h => matchKw_consumed h) hm
        rw [List.length_cons] at hlen2
        exact ih r (by omega) (NoM_suffix h hl)

/-- Claim C9.  The body sanitizer is idempotent: applying
`strip_abstract_keywords_from_latex` to its own output returns that
output unchanged.  The proof shows that a substitution pass leaves no
suffix matching its own pattern, that the keywords pass cannot create a
new abstract-pattern match (kept segments resume only at lookahead
boundaries whose tokens never continue a pattern word), and that a pass
is the identity on match-free text. -/
theorem claim_C9_sanitizer_idempotent :
    ∀ s : String,
      strip_abstract_keywords_from_latex (strip_abstract_keywords_from_latex s)
        = strip_abstract_keywords_from_latex s := by
  intro s
  unfold strip_abstract_keywords_from_latex
  dsimp only
  have h1 : NoM matchAbs (subM matchAbs s.data) := noM1_sub1 _ _ (le_refl _)
  have h2 : NoM matchAbs (subM matchKw (subM matchAbs s.data)) :=
    noM1_sub2 _ _ (le_refl _) h1
  have h3 : subM matchAbs (subM matchKw (subM matchAbs s.data))
      = subM matchKw (subM matchAbs s.data) := subM_id_of_NoM h2
  have h4 : NoM matchKw (subM matchKw (subM matchAbs s.data)) :=
    noM2_sub2 _ _ (le_refl _)
  have h5 := subM_id_of_NoM h4
  rw [h3, h5]

end App
